import Mathlib

/-!
# Circular queue (`circularqueue.go`)

A shallow embedding of the fixed-capacity circular queue of `circularqueue.go`
and a verification of its specification.

Modelling conventions.

* Go's `int` is the 64-bit two's-complement integer: every arithmetic
  operation of the source is followed by `wrapInt`.
* `interface{}` values are `Option α`; Go's `nil` is `none`.
* A Go slice that is `nil` is `none`; the slice built by `make` has length equal
  to its capacity and is never re-sliced, so a non-nil slice is a `List`.
* A run-time panic (failed nil check, index out of range, slice bounds out of
  range) is the result `none`; a call that returns yields `some r` where `r`
  holds the state after the call, the returned value and the returned error.
* `make` panics when it is asked for more slots than the run time can
  allocate (`makeslice: len out of range` above `2^44` slots of `interface{}` on
  linux/amd64, less when memory is short); that number is the parameter `limit`
  of `NewQueue`.
* The mutex is not modelled: calls are sequential.
-/

namespace CircularQueue

/-! ## Machine integers -/

/-- Smallest value of Go's 64-bit `int`. -/
def minInt : Int := -9223372036854775808

/-- Largest value of Go's 64-bit `int`. -/
def maxInt : Int := 9223372036854775807

/-- Two's-complement reduction of an integer to the range of Go's `int`. -/
def wrapInt (x : Int) : Int :=
  (x + 9223372036854775808) % 18446744073709551616 - 9223372036854775808

/-- Go's `a + b` on `int`. -/
def iadd (a b : Int) : Int := wrapInt (a + b)

/-- Go's `a - b` on `int`. -/
def isub (a b : Int) : Int := wrapInt (a - b)

/-- Go's unary `-a` on `int`. -/
def ineg (a : Int) : Int := wrapInt (-a)

/-- The values a Go `int` can hold. -/
def isInt (x : Int) : Prop := minInt ≤ x ∧ x ≤ maxInt

instance (x : Int) : Decidable (isInt x) := by
  unfold isInt
  exact inferInstance

/-! ## Slices -/

/-- Go's `s[i]` as a read: `none` is the index-out-of-range panic. -/
def load {β : Type} (s : List β) (i : Int) : Option β :=
  if 0 ≤ i ∧ i < s.length then s[i.toNat]? else none

/-- Go's `s[i] = v`: `none` is the index-out-of-range panic. -/
def store {β : Type} (s : List β) (i : Int) (v : β) : Option (List β) :=
  if 0 ≤ i ∧ i < s.length then some (s.set i.toNat v) else none

/-- Go's slice expression `s[lo:hi]` is valid when `0 ≤ lo ≤ hi ≤ cap(s)`;
here `cap(s)` is the length of the list. -/
def sliceOK {β : Type} (s : List β) (lo hi : Int) : Prop :=
  0 ≤ lo ∧ lo ≤ hi ∧ hi ≤ s.length

instance {β : Type} (s : List β) (lo hi : Int) : Decidable (sliceOK s lo hi) := by
  unfold sliceOK
  exact inferInstance

/-- Go's `copy(s[dlo:dhi], s[slo:shi])` on one backing array: both slice
expressions are evaluated first (`none` is the slice-bounds panic), then
`min (dhi - dlo) (shi - slo)` elements are moved as by `memmove`. -/
def sliceCopy {β : Type} (s : List β) (dlo dhi slo shi : Int) : Option (List β) :=
  if sliceOK s dlo dhi ∧ sliceOK s slo shi then
    let n := min (dhi - dlo) (shi - slo)
    some (s.mapIdx fun j x =>
      if dlo ≤ (j : Int) ∧ (j : Int) < dlo + n then
        (s[((j : Int) - dlo + slo).toNat]?).getD x
      else x)
  else none

/-! ## Data model -/

/-- The errors returned by `Push` and `PopAt`, each with the numbers its message
prints: the capacity for a full queue (line 70), nothing for an empty queue
(line 95), the index and the length for an index out of range (lines 101 and
106). -/
inductive QError where
  | Full (capacity : Int)
  | Empty
  | IndexOutOfRange (index length : Int)
  deriving DecidableEq

/-- The struct `Queue` without its mutex. -/
structure Queue (α : Type) where
  queue : Option (List (Option α))
  tail : Int
  len : Int
  cap : Int
  deriving DecidableEq

/-- What a call that returns leaves behind: the receiver after the call, the
first returned value and the returned error (`none` is Go's `nil` error). -/
structure Ret (σ β : Type) where
  state : σ
  val : β
  err : Option QError
  deriving DecidableEq

variable {α : Type}

/-! ## Operations -/

/-- `NewQueue(capacity)`, where `limit` is the largest number of slots `make`
can allocate; `none` is the panic on `capacity <= 0` (line 26) or the panic of
`make` on a capacity above `limit` (line 33). -/
def NewQueue (limit capacity : Int) : Option (Queue α) :=
  if capacity ≤ 0 then none
  else if capacity > limit then none
  else some
    { queue := some (List.replicate capacity.toNat none)
      tail := -1
      len := 0
      cap := capacity }

/-- `Len()`. -/
def Len (q : Queue α) : Int := q.len

/-- `Cap()`. -/
def Cap (q : Queue α) : Int := q.cap

/-- `Vacant()`. -/
def Vacant (q : Queue α) : Int := isub q.cap q.len

/-- `Push(element)`. -/
def Push (q : Queue α) (element : Option α) : Option (Ret (Queue α) Int) :=
  match q.queue with
  | none => none
  | some slots =>
    if q.len = q.cap then
      some ⟨q, 0, some (QError.Full q.cap)⟩
    else
      let len := iadd q.len 1
      let tail := iadd q.tail 1
      let tail := if tail = q.cap then 0 else tail
      match store slots tail element with
      | none => none
      | some slots =>
        some ⟨{ q with queue := some slots, tail := tail, len := len }, isub q.cap len, none⟩

/-- The end of `PopAt` (lines 147-152): wrap a negative tail, decrement the
length, return the element. -/
def popDone (q : Queue α) (element : Option α) : Ret (Queue α) (Option α) :=
  let tail := if q.tail < 0 then iadd q.tail q.cap else q.tail
  ⟨{ q with tail := tail, len := isub q.len 1 }, element, none⟩

/-- The local `headIndex` of `PopAt` (lines 113-116). -/
def headIndex (q : Queue α) : Int :=
  let headIndex := iadd (isub q.tail q.len) 1
  if headIndex < 0 then iadd headIndex q.cap else headIndex

/-- The removal part of `PopAt` (lines 118-145) once `realIndex` is computed. -/
def popShift (q : Queue α) (slots : List (Option α)) (realIndex : Int) :
    Option (Ret (Queue α) (Option α)) :=
  let headIndex := headIndex q
  if realIndex ≥ 0 then do
    let element ← load slots realIndex
    if realIndex = q.tail then do
      let slots ← store slots q.tail none
      pure (popDone { q with queue := some slots, tail := isub q.tail 1 } element)
    else if realIndex = headIndex then do
      let slots ← store slots realIndex none
      pure (popDone { q with queue := some slots } element)
    else do
      let slots ← sliceCopy slots realIndex q.tail (iadd realIndex 1) (iadd q.tail 1)
      let slots ← store slots q.tail none
      pure (popDone { q with queue := some slots, tail := isub q.tail 1 } element)
  else do
    let realIndex := iadd realIndex q.cap
    let element ← load slots realIndex
    if realIndex = q.tail then do
      let slots ← store slots q.tail none
      pure (popDone { q with queue := some slots, tail := isub q.tail 1 } element)
    else if realIndex = headIndex then do
      let slots ← store slots realIndex none
      pure (popDone { q with queue := some slots } element)
    else do
      let slots ← sliceCopy slots realIndex q.cap (iadd realIndex 1) (iadd q.cap 1)
      let first ← load slots 0
      let slots ← store slots (isub q.cap 1) first
      let slots ← sliceCopy slots 0 q.tail 1 (iadd q.tail 1)
      let slots ← store slots q.tail none
      pure (popDone { q with queue := some slots, tail := isub q.tail 1 } element)

/-- `PopAt(index)`. -/
def PopAt (q : Queue α) (index : Int) : Option (Ret (Queue α) (Option α)) :=
  match q.queue with
  | none => none
  | some slots =>
    if q.len = 0 then
      some ⟨q, none, some QError.Empty⟩
    else if index < 0 then
      if ineg index > q.len then
        some ⟨q, none, some (QError.IndexOutOfRange index q.len)⟩
      else
        popShift q slots (iadd (iadd q.tail index) 1)
    else
      if index > q.len then
        some ⟨q, none, some (QError.IndexOutOfRange index q.len)⟩
      else
        popShift q slots (iadd (iadd (isub q.tail q.len) 1) index)

/-- `Pop()`. -/
def Pop (q : Queue α) : Option (Ret (Queue α) (Option α)) := PopAt q (-1)

/-- The slot that holds the element of logical position `i`, computed the way
the loop of `String()` computes `i_` (lines 168-173): `headIndex + i`, plus `cap`
when that is negative. -/
def logicalSlot (q : Queue α) (i : Int) : Int :=
  let headIndex := iadd (isub q.tail q.len) 1
  let i_ := iadd headIndex i
  if i_ < 0 then iadd i_ q.cap else i_

/-- The elements from head to tail (oldest first), read the way the loop of
`String()` reads them: slot `logicalSlot q i` for `i = 0 .. len - 1`, without
the elision of the middle of a long queue. A slot outside the array reads as
`nil`. -/
def contents (q : Queue α) : List (Option α) :=
  match q.queue with
  | none => []
  | some slots =>
    (List.range q.len.toNat).map fun (i : Nat) => (load slots (logicalSlot q (i : Int))).join

/-! ## Reachable states -/

/-- The states a program can reach through the exported API: `NewQueue` with an
`int` capacity, followed by calls of `Push` and `PopAt` (`Pop` is `PopAt (-1)`)
that return. A call that panics yields no state (every panic of `PopAt`
precedes its first write, so a recovered panic would add no state either). -/
inductive Reachable : Queue α → Prop where
  | new (limit capacity : Int) (q : Queue α) :
      isInt capacity → NewQueue limit capacity = some q → Reachable q
  | push (q : Queue α) (element : Option α) (r : Ret (Queue α) Int) :
      Reachable q → Push q element = some r → Reachable r.state
  | popAt (q : Queue α) (index : Int) (r : Ret (Queue α) (Option α)) :
      Reachable q → isInt index → PopAt q index = some r → Reachable r.state

/-- The numeric part of the state invariant: the slice is allocated with `cap`
slots, `0 < cap` fits an `int`, `0 ≤ len ≤ cap`, `-1 ≤ tail < cap` and `tail` is a
slot index as soon as the queue holds an element. -/
def Inv (q : Queue α) : Prop :=
  ∃ slots, q.queue = some slots ∧ (slots.length : Int) = q.cap ∧ 0 < q.cap ∧ q.cap ≤ maxInt ∧
    0 ≤ q.len ∧ q.len ≤ q.cap ∧ -1 ≤ q.tail ∧ q.tail < q.cap ∧ (0 < q.len → 0 ≤ q.tail)

/-- Slot `j` lies outside the circular run of `len` slots that ends at `tail`:
it is neither one of the slots `tail - len + 1 .. tail` nor, when that range
starts below zero, one of the slots from `tail - len + 1 + cap` upwards. -/
def outsideRun (q : Queue α) (j : Int) : Prop :=
  (j < q.tail - q.len + 1 ∨ q.tail < j) ∧ j < q.tail - q.len + 1 + q.cap

/-- Occupancy of the slot array: every slot outside the run is `nil` and every
slot of the run holds a value that satisfies `P`. -/
def Occupancy (P : Option α → Prop) (q : Queue α) : Prop :=
  ∀ slots, q.queue = some slots → ∀ j : Int, 0 ≤ j → j < q.cap →
    (outsideRun q j → load slots j = some none) ∧
      (¬ outsideRun q j → ∃ e, load slots j = some e ∧ P e)

/-! ## Repeated calls -/

/-- Push the elements of a list one after the other; the result is `none` as
soon as a call panics or returns an error. -/
def pushAll : Queue α → List (Option α) → Option (Queue α)
  | q, [] => some q
  | q, x :: xs =>
    match Push q x with
    | none => none
    | some r =>
      match r.err with
      | some _ => none
      | none => pushAll r.state xs

/-- Call `PopAt(index)` `n` times and collect the returned elements in call
order; the result is `none` as soon as a call panics or returns an error. -/
def popRepeat (index : Int) : Nat → Queue α → Option (List (Option α) × Queue α)
  | 0, q => some ([], q)
  | n + 1, q =>
    match PopAt q index with
    | none => none
    | some r =>
      match r.err with
      | some _ => none
      | none =>
        match popRepeat index n r.state with
        | none => none
        | some (vs, p) => some (r.val :: vs, p)

/-- Push the elements of a list one after the other, whatever each call
returns, and collect the returned errors in call order; the result is `none`
as soon as a call panics. -/
def pushSeq : Queue α → List (Option α) → Option (List (Option QError) × Queue α)
  | q, [] => some ([], q)
  | q, x :: xs =>
    match Push q x with
    | none => none
    | some r =>
      match pushSeq r.state xs with
      | none => none
      | some (es, p) => some (r.err :: es, p)

/-- The states reachable from `NewQueue(c)` by calls of `Push` and `PopAt` that
return, where every pushed element satisfies `P`. With `P` always true these
are the states of `Reachable` together with their construction capacity. -/
inductive ReachableVia (P : Option α → Prop) (c : Int) : Queue α → Prop where
  | new (limit : Int) (q : Queue α) :
      isInt c → NewQueue limit c = some q → ReachableVia P c q
  | push (q : Queue α) (element : Option α) (r : Ret (Queue α) Int) :
      ReachableVia P c q → P element → Push q element = some r → ReachableVia P c r.state
  | popAt (q : Queue α) (index : Int) (r : Ret (Queue α) (Option α)) :
      ReachableVia P c q → isInt index → PopAt q index = some r → ReachableVia P c r.state

/-! ## Sample states -/

/-- The state after `NewQueue(3)`, `Push(1)`, `Push(2)`, `Push(3)`, `PopAt(0)`,
`Push(4)`: a full queue whose occupied run wraps (head in slot 1, tail in
slot 0). -/
def wrappedQueue : Queue Nat :=
  { queue := some [some 4, some 2, some 3], tail := 0, len := 3, cap := 3 }

/-- The state after `NewQueue(2)`, `Push(1)`. -/
def halfQueue : Queue Nat :=
  { queue := some [some 1, none], tail := 0, len := 1, cap := 2 }

/-- The state after `NewQueue(1)`, `Push(7)`. -/
def unitQueue : Queue Nat :=
  { queue := some [some 7], tail := 0, len := 1, cap := 1 }

/-- The state after `NewQueue(1)`, `Push(nil)`. -/
def nilQueue : Queue Nat :=
  { queue := some [none], tail := 0, len := 1, cap := 1 }

/-- The state after `NewQueue(4)`, `Push(1)`, `Push(2)`, `Push(3)`, `Push(4)`: a
full queue whose occupied run does not wrap. -/
def straightQueue : Queue Nat :=
  { queue := some [some 1, some 2, some 3, some 4], tail := 3, len := 4, cap := 4 }

/-! ## Basic facts -/

theorem wrapInt_eq {x : Int} (h1 : minInt ≤ x) (h2 : x ≤ maxInt) : wrapInt x = x := by
  unfold wrapInt; unfold minInt at h1; unfold maxInt at h2; omega

theorem store_length {β : Type} {s s1 : List β} {i : Int} {v : β} (h : store s i v = some s1) :
    s1.length = s.length := by
  unfold store at h
  split at h
  · cases h; simp
  · cases h

theorem sliceCopy_length {β : Type} {s s1 : List β} {a b c d : Int}
    (h : sliceCopy s a b c d = some s1) : s1.length = s.length := by
  unfold sliceCopy at h
  split at h
  · cases h; simp
  · cases h

theorem load_eq {β : Type} {s : List β} {i : Int} (h0 : 0 ≤ i) (h1 : i < s.length) :
    load s i = s[i.toNat]? := by
  simp [load, h0, h1]

theorem store_eq {β : Type} {s : List β} {i : Int} (v : β) (h0 : 0 ≤ i) (h1 : i < s.length) :
    store s i v = some (s.set i.toNat v) := by
  simp [store, h0, h1]

theorem load_set_ne {β : Type} (s : List β) {i j : Int} (v : β) (hi : 0 ≤ i) (hj : 0 ≤ j)
    (hne : i ≠ j) : load (s.set i.toNat v) j = load s j := by
  have : i.toNat ≠ j.toNat := by omega
  simp [load, List.getElem?_set_ne this]

theorem load_set_eq {β : Type} (s : List β) {i : Int} (v : β) (h0 : 0 ≤ i) (h1 : i < s.length) :
    load (s.set i.toNat v) i = some v := by
  have : i.toNat < s.length := by omega
  simp [load, h0, h1, this]

/-! ## The invariant holds in every reachable state -/

theorem popDone_inv {q : Queue α} {slots : List (Option α)} {t : Int} {e : Option α}
    (hl : (slots.length : Int) = q.cap) (hc : 0 < q.cap) (hm : q.cap ≤ maxInt)
    (h0 : 0 < q.len) (h1 : q.len ≤ q.cap) (ht : -1 ≤ t) (ht2 : t < q.cap) :
    Inv (popDone { q with queue := some slots, tail := t } e).state := by
  refine ⟨slots, rfl, hl, hc, hm, ?_⟩
  simp only [popDone, isub, iadd, wrapInt]
  unfold maxInt at hm
  split <;> omega

theorem popShift_shape {q : Queue α} {slots : List (Option α)} {ri : Int}
    {r : Ret (Queue α) (Option α)} (h : popShift q slots ri = some r) :
    ∃ s t e, s.length = slots.length ∧ (t = q.tail ∨ t = isub q.tail 1) ∧
      r = popDone { q with queue := some s, tail := t } e := by
  unfold popShift at h
  simp only [Option.bind_eq_bind, Option.pure_def] at h
  split at h
  all_goals
    obtain ⟨e, -, h⟩ := Option.bind_eq_some.1 h
    split at h
    · obtain ⟨s, hs, h⟩ := Option.bind_eq_some.1 h
      exact ⟨s, _, e, store_length hs, Or.inr rfl, (Option.some.inj h).symm⟩
    split at h
    · obtain ⟨s, hs, h⟩ := Option.bind_eq_some.1 h
      exact ⟨s, _, e, store_length hs, Or.inl rfl, (Option.some.inj h).symm⟩
  · obtain ⟨s1, hs1, h⟩ := Option.bind_eq_some.1 h
    obtain ⟨s2, hs2, h⟩ := Option.bind_eq_some.1 h
    exact ⟨s2, _, e, by rw [store_length hs2, sliceCopy_length hs1], Or.inr rfl,
      (Option.some.inj h).symm⟩
  · obtain ⟨s1, hs1, h⟩ := Option.bind_eq_some.1 h
    obtain ⟨f, -, h⟩ := Option.bind_eq_some.1 h
    obtain ⟨s2, hs2, h⟩ := Option.bind_eq_some.1 h
    obtain ⟨s3, hs3, h⟩ := Option.bind_eq_some.1 h
    obtain ⟨s4, hs4, h⟩ := Option.bind_eq_some.1 h
    exact ⟨s4, _, e, by
      rw [store_length hs4, sliceCopy_length hs3, store_length hs2, sliceCopy_length hs1],
      Or.inr rfl, (Option.some.inj h).symm⟩

theorem popShift_inv {q : Queue α} {slots : List (Option α)} {ri : Int}
    {r : Ret (Queue α) (Option α)}
    (hl : (slots.length : Int) = q.cap) (hc : 0 < q.cap) (hm : q.cap ≤ maxInt)
    (h0 : 0 < q.len) (h1 : q.len ≤ q.cap) (ht : 0 ≤ q.tail) (ht2 : q.tail < q.cap)
    (h : popShift q slots ri = some r) :
    Inv r.state ∧ r.state.len = q.len - 1 ∧ r.state.cap = q.cap ∧ r.err = none := by
  obtain ⟨s, t, e, hs, ht3, rfl⟩ := popShift_shape h
  have hw : isub q.tail 1 = q.tail - 1 := by
    unfold maxInt at hm; simp only [isub, wrapInt]; omega
  have hlen : isub q.len 1 = q.len - 1 := by
    unfold maxInt at hm; simp only [isub, wrapInt]; omega
  refine ⟨popDone_inv (q := q) (by rw [hs]; exact hl) hc hm h0 h1 ?_ ?_, ?_, rfl, rfl⟩
  · rcases ht3 with rfl | rfl <;> omega
  · rcases ht3 with rfl | rfl <;> omega
  · simp only [popDone, hlen]

theorem newQueue_some {limit capacity : Int} {q : Queue α}
    (h : NewQueue limit capacity = some q) :
    0 < capacity ∧ capacity ≤ limit ∧
      q = ⟨some (List.replicate capacity.toNat none), -1, 0, capacity⟩ := by
  unfold NewQueue at h
  split at h
  · cases h
  · split at h
    · cases h
    · cases h
      exact ⟨by omega, by omega, rfl⟩

theorem newQueue_inv {limit capacity : Int} {q : Queue α} (hc : isInt capacity)
    (h : NewQueue limit capacity = some q) : Inv q := by
  obtain ⟨hpos, -, rfl⟩ := newQueue_some h
  refine ⟨_, rfl, ?_, ?_, hc.2, ?_⟩
  · simp only [List.length_replicate]; omega
  · show 0 < capacity
    omega
  · show (0 : Int) ≤ 0 ∧ 0 ≤ capacity ∧ (-1 : Int) ≤ -1 ∧ -1 < capacity ∧ ((0 : Int) < 0 → 0 ≤ -1)
    omega

theorem push_inv {q : Queue α} {x : Option α} {r : Ret (Queue α) Int} (hi : Inv q)
    (h : Push q x = some r) : Inv r.state := by
  obtain ⟨slots, hq, hl, hc, hm, h0, h1, ht, ht2, ht3⟩ := hi
  unfold Push at h
  rw [hq] at h
  simp only at h
  split at h
  · cases h; exact ⟨slots, hq, hl, hc, hm, h0, h1, ht, ht2, ht3⟩
  · rename_i hne
    split at h
    · cases h
    · rename_i s hs
      cases h
      refine ⟨s, rfl, by rw [store_length hs]; exact hl, hc, hm, ?_⟩
      simp only [iadd, wrapInt]
      unfold maxInt at hm
      split <;> omega

theorem popAt_inv {q : Queue α} {index : Int} {r : Ret (Queue α) (Option α)} (hi : Inv q)
    (h : PopAt q index = some r) : Inv r.state := by
  obtain ⟨slots, hq, hl, hc, hm, h0, h1, ht, ht2, ht3⟩ := hi
  have hinv : Inv q := ⟨slots, hq, hl, hc, hm, h0, h1, ht, ht2, ht3⟩
  unfold PopAt at h
  rw [hq] at h
  simp only at h
  split at h
  · cases h; exact hinv
  · have hpos : 0 < q.len := by omega
    split at h <;> split at h
    · cases h; exact hinv
    · exact (popShift_inv hl hc hm hpos h1 (ht3 hpos) ht2 h).1
    · cases h; exact hinv
    · exact (popShift_inv hl hc hm hpos h1 (ht3 hpos) ht2 h).1

theorem reachable_inv {q : Queue α} (h : Reachable q) : Inv q := by
  induction h with
  | new limit capacity q hc hq => exact newQueue_inv hc hq
  | push q x r _ hp ih => exact push_inv ih hp
  | popAt q index r _ _ hp ih => exact popAt_inv ih hp

/-! ## Push and the head-to-tail contents -/

theorem logicalSlot_spec {q : Queue α} (hc : 0 < q.cap) (hm : q.cap ≤ maxInt)
    (h1 : q.len ≤ q.cap) (ht : 0 ≤ q.tail) (ht2 : q.tail < q.cap)
    {i : Int} (hi0 : 0 ≤ i) (hi : i < q.len) :
    0 ≤ logicalSlot q i ∧ logicalSlot q i < q.cap ∧
      (logicalSlot q i = q.tail - q.len + 1 + i ∨
        logicalSlot q i = q.tail - q.len + 1 + i + q.cap) := by
  unfold maxInt at hm
  simp only [logicalSlot, iadd, isub, wrapInt]
  split <;> omega

theorem push_eval {q : Queue α} {slots : List (Option α)} (x : Option α)
    (hq : q.queue = some slots) (hl : (slots.length : Int) = q.cap) (hm : q.cap ≤ maxInt)
    (h0 : 0 ≤ q.len) (hlt : q.len < q.cap) (ht : -1 ≤ q.tail) (ht2 : q.tail < q.cap) :
    Push q x = some
      ⟨{ q with queue := some (slots.set ((q.tail + 1) % q.cap).toNat x),
                tail := (q.tail + 1) % q.cap, len := q.len + 1 },
        q.cap - (q.len + 1), none⟩ := by
  have e1 : iadd q.len 1 = q.len + 1 := by
    unfold maxInt at hm; simp only [iadd, wrapInt]; omega
  have e2 : iadd q.tail 1 = q.tail + 1 := by
    unfold maxInt at hm; simp only [iadd, wrapInt]; omega
  have e3 : isub q.cap (q.len + 1) = q.cap - (q.len + 1) := by
    unfold maxInt at hm; simp only [isub, wrapInt]; omega
  have e4 : (if q.tail + 1 = q.cap then 0 else q.tail + 1) = (q.tail + 1) % q.cap := by
    split
    · rename_i h; rw [h, Int.emod_self]
    · rw [Int.emod_eq_of_lt (by omega) (by omega)]
  have e5 : 0 ≤ (q.tail + 1) % q.cap := Int.emod_nonneg _ (by omega)
  have e6 : (q.tail + 1) % q.cap < q.cap := Int.emod_lt_of_pos _ (by omega)
  unfold Push
  rw [hq]
  simp only [e1, e2, e3, e4, if_neg (ne_of_lt hlt)]
  rw [store_eq x e5 (by omega)]

theorem push_contents {q : Queue α} {slots : List (Option α)} (x : Option α)
    (hq : q.queue = some slots) (hl : (slots.length : Int) = q.cap) (hm : q.cap ≤ maxInt)
    (h0 : 0 ≤ q.len) (hlt : q.len < q.cap) (ht : -1 ≤ q.tail) (ht2 : q.tail < q.cap)
    (ht3 : 0 < q.len → 0 ≤ q.tail) :
    contents { q with queue := some (slots.set ((q.tail + 1) % q.cap).toNat x),
                      tail := (q.tail + 1) % q.cap, len := q.len + 1 } =
      contents q ++ [x] := by
  have e4 : ((q.tail + 1) % q.cap = q.tail + 1 ∧ q.tail + 1 < q.cap) ∨
      (q.tail + 1 = q.cap ∧ (q.tail + 1) % q.cap = 0) := by
    by_cases h : q.tail + 1 = q.cap
    · right; exact ⟨h, by rw [h, Int.emod_self]⟩
    · left; exact ⟨Int.emod_eq_of_lt (by omega) (by omega), by omega⟩
  generalize (q.tail + 1) % q.cap = t at e4
  have hn : (q.len + 1).toNat = q.len.toNat + 1 := by omega
  unfold maxInt at hm
  have hr : 0 ≤ t ∧ t < q.cap := by constructor <;> omega
  unfold contents
  rw [hq]
  simp only [hn, List.range_succ, List.map_append, List.map_singleton]
  congr 1
  · apply List.map_congr_left
    intro i hi
    rw [List.mem_range] at hi
    have hs := logicalSlot_spec (q := q) (by omega) hm (by omega) (ht3 (by omega)) ht2
      (i := (i : Int)) (by omega) (by omega)
    have hsame : ∀ s : Option (List (Option α)),
        logicalSlot { q with queue := s, tail := t, len := q.len + 1 } (i : Int) =
          logicalSlot q (i : Int) := by
      intro s
      have := ht3 (by omega)
      simp only [logicalSlot, iadd, isub, wrapInt]
      rcases e4 with ⟨e, -⟩ | ⟨e, e0⟩
      · subst e; split <;> split <;> omega
      · subst e0; split <;> split <;> omega
    rw [hsame, load_set_ne]
    · omega
    · omega
    · omega
  · have hlast : ∀ s : Option (List (Option α)),
        logicalSlot { q with queue := s, tail := t, len := q.len + 1 }
          ((q.len.toNat : Nat) : Int) = t := by
      intro s
      simp only [logicalSlot, iadd, isub, wrapInt]
      rcases e4 with ⟨e, -⟩ | ⟨e, e0⟩
      · subst e; split <;> omega
      · subst e0; split <;> omega
    rw [hlast, load_set_eq _ _ (by omega) (by omega)]
    rfl

/-! ## Removal at the head and at the tail -/

theorem headIndex_spec {q : Queue α} (hc : 0 < q.cap) (hm : q.cap ≤ maxInt)
    (h0 : 0 < q.len) (h1 : q.len ≤ q.cap) (ht : 0 ≤ q.tail) (ht2 : q.tail < q.cap) :
    0 ≤ headIndex q ∧ headIndex q < q.cap ∧ headIndex q = logicalSlot q 0 ∧
      (headIndex q = q.tail - q.len + 1 ∨ headIndex q = q.tail - q.len + 1 + q.cap) := by
  unfold maxInt at hm
  simp only [headIndex, logicalSlot, iadd, isub, wrapInt]
  split <;> split <;> omega

theorem load_some {β : Type} {s : List β} {i : Int} (h0 : 0 ≤ i) (h1 : i < s.length) :
    ∃ e, load s i = some e := by
  have : i.toNat < s.length := by omega
  exact ⟨s[i.toNat], by rw [load_eq h0 h1, List.getElem?_eq_getElem this]⟩

theorem contents_length (q : Queue α) (h : q.queue ≠ none) :
    (contents q).length = q.len.toNat := by
  unfold contents
  split
  · contradiction
  · simp

theorem contents_remove_head {q p : Queue α} {slots : List (Option α)}
    (hq : q.queue = some slots) (hc : 0 < q.cap) (hm : q.cap ≤ maxInt)
    (h0 : 0 < q.len) (h1 : q.len ≤ q.cap) (ht : 0 ≤ q.tail) (ht2 : q.tail < q.cap)
    (hp : p.queue = some (slots.set (headIndex q).toNat none))
    (hlen : p.len = q.len - 1) (hcap : p.cap = q.cap) (htail : 1 < q.len → p.tail = q.tail) :
    contents p = (contents q).tail := by
  obtain ⟨hh0, hh1, hh2, -⟩ := headIndex_spec hc hm h0 h1 ht ht2
  have hs0 := logicalSlot_spec hc hm h1 ht ht2 (i := 0) (by omega) h0
  obtain ⟨m, hm1⟩ : ∃ m : Nat, q.len.toNat = m + 1 := ⟨q.len.toNat - 1, by omega⟩
  have hm2 : p.len.toNat = m := by omega
  unfold contents
  rw [hq, hp]
  simp only [hm1, hm2, List.range_succ_eq_map, List.map_cons, List.tail_cons, List.map_map]
  apply List.map_congr_left
  intro i hi
  rw [List.mem_range] at hi
  have hs := logicalSlot_spec hc hm h1 ht ht2 (i := ((i + 1 : Nat) : Int)) (by omega) (by omega)
  have hsame : logicalSlot p (i : Int) = logicalSlot q ((i + 1 : Nat) : Int) := by
    have := htail (by omega)
    unfold maxInt at hm
    simp only [logicalSlot, iadd, isub, wrapInt, hlen, hcap, this]
    split <;> split <;> omega
  simp only [Function.comp, hsame]
  rw [load_set_ne _ _ hh0 hs.1 (by omega)]

theorem contents_head {q : Queue α} {slots : List (Option α)} {e : Option α}
    (hq : q.queue = some slots) (hc : 0 < q.cap) (hm : q.cap ≤ maxInt)
    (h0 : 0 < q.len) (h1 : q.len ≤ q.cap) (ht : 0 ≤ q.tail) (ht2 : q.tail < q.cap)
    (he : load slots (headIndex q) = some e) : (contents q).head? = some e := by
  obtain ⟨hh0, hh1, hh2, -⟩ := headIndex_spec hc hm h0 h1 ht ht2
  obtain ⟨m, hm1⟩ : ∃ m : Nat, q.len.toNat = m + 1 := ⟨q.len.toNat - 1, by omega⟩
  unfold contents
  rw [hq]
  simp only [hm1, List.range_succ_eq_map, List.map_cons, List.head?_cons]
  rw [hh2] at he
  simp [he]

theorem contents_remove_tail {q p : Queue α} {slots : List (Option α)}
    (hq : q.queue = some slots) (hc : 0 < q.cap) (hm : q.cap ≤ maxInt)
    (h0 : 0 < q.len) (h1 : q.len ≤ q.cap) (ht : 0 ≤ q.tail) (ht2 : q.tail < q.cap)
    (hp : p.queue = some (slots.set q.tail.toNat none))
    (hlen : p.len = q.len - 1) (hcap : p.cap = q.cap)
    (htail : p.tail = if q.tail - 1 < 0 then q.tail - 1 + q.cap else q.tail - 1) :
    contents p = (contents q).dropLast := by
  obtain ⟨m, hm1⟩ : ∃ m : Nat, q.len.toNat = m + 1 := ⟨q.len.toNat - 1, by omega⟩
  have hm2 : p.len.toNat = m := by omega
  unfold contents
  rw [hq, hp]
  simp only [hm1, hm2, List.range_succ, List.map_append, List.map_singleton,
    List.dropLast_concat]
  apply List.map_congr_left
  intro i hi
  rw [List.mem_range] at hi
  have hs := logicalSlot_spec hc hm h1 ht ht2 (i := (i : Int)) (by omega) (by omega)
  have hsame : logicalSlot p (i : Int) = logicalSlot q (i : Int) := by
    unfold maxInt at hm
    simp only [logicalSlot, iadd, isub, wrapInt, hlen, hcap, htail]
    split <;> split <;> split <;> omega
  rw [hsame, load_set_ne _ _ ht hs.1 (by omega)]

theorem contents_last {q : Queue α} {slots : List (Option α)} {e : Option α}
    (hq : q.queue = some slots) (hc : 0 < q.cap) (hm : q.cap ≤ maxInt)
    (h0 : 0 < q.len) (ht : 0 ≤ q.tail) (ht2 : q.tail < q.cap)
    (he : load slots q.tail = some e) : (contents q).getLast? = some e := by
  obtain ⟨m, hm1⟩ : ∃ m : Nat, q.len.toNat = m + 1 := ⟨q.len.toNat - 1, by omega⟩
  have hlast : logicalSlot q (m : Int) = q.tail := by
    unfold maxInt at hm
    simp only [logicalSlot, iadd, isub, wrapInt]
    split <;> omega
  unfold contents
  rw [hq]
  simp only [hm1, List.range_succ, List.map_append, List.map_singleton,
    List.getLast?_append, List.getLast?_singleton, hlast, he]
  rfl

theorem popAt_zero_eval {q : Queue α} {slots : List (Option α)}
    (hq : q.queue = some slots) (hl : (slots.length : Int) = q.cap)
    (hc : 0 < q.cap) (hm : q.cap ≤ maxInt)
    (h0 : 0 < q.len) (h1 : q.len ≤ q.cap) (ht : 0 ≤ q.tail) (ht2 : q.tail < q.cap) :
    ∃ r, PopAt q 0 = some r ∧ r.err = none ∧ load slots (headIndex q) = some r.val ∧
      r.state.queue = some (slots.set (headIndex q).toNat none) ∧
      r.state.len = q.len - 1 ∧ r.state.cap = q.cap ∧ (1 < q.len → r.state.tail = q.tail) := by
  obtain ⟨hh0, hh1, -, hh3⟩ := headIndex_spec hc hm h0 h1 ht ht2
  obtain ⟨e, he⟩ := load_some (s := slots) hh0 (by omega)
  have hm9 := hm
  unfold maxInt at hm9
  have e1 : iadd (iadd (isub q.tail q.len) 1) 0 = q.tail - q.len + 1 := by
    simp only [iadd, isub, wrapInt]; omega
  have e2 : isub q.len 1 = q.len - 1 := by
    simp only [isub, wrapInt]; omega
  have st1 := store_eq (s := slots) none hh0 (by omega)
  have st2 := store_eq (s := slots) none ht (by omega)
  unfold PopAt
  rw [hq]
  simp only [if_neg (ne_of_gt h0), lt_irrefl, if_false, if_neg (not_lt.2 (le_of_lt h0)), e1]
  unfold popShift
  simp only [Option.bind_eq_bind, Option.pure_def]
  by_cases hge : q.tail - q.len + 1 ≥ 0
  · have hh : headIndex q = q.tail - q.len + 1 := by omega
    rw [if_pos hge, ← hh, he]
    by_cases h1l : q.len = 1
    · have htl : headIndex q = q.tail := by omega
      rw [htl] at he ⊢
      simp only [Option.some_bind, if_true, st2]
      refine ⟨_, rfl, rfl, rfl, rfl, ?_, rfl, ?_⟩
      · simp only [popDone, e2]
      · intro; omega
    · have htl : headIndex q ≠ q.tail := by omega
      simp only [Option.some_bind, if_neg htl, if_true, st1]
      refine ⟨_, rfl, rfl, rfl, rfl, ?_, rfl, ?_⟩
      · simp only [popDone, e2]
      · intro; simp only [popDone, if_neg (not_lt.2 ht)]
  · have hh : headIndex q = q.tail - q.len + 1 + q.cap := by omega
    have e3 : iadd (q.tail - q.len + 1) q.cap = q.tail - q.len + 1 + q.cap := by
      simp only [iadd, wrapInt]; omega
    rw [if_neg hge, e3, ← hh, he]
    have htl : headIndex q ≠ q.tail := by omega
    simp only [Option.some_bind, if_neg htl, if_true, st1]
    refine ⟨_, rfl, rfl, rfl, rfl, ?_, rfl, ?_⟩
    · simp only [popDone, e2]
    · intro; simp only [popDone, if_neg (not_lt.2 ht)]

theorem popAt_last_eval {q : Queue α} {slots : List (Option α)}
    (hq : q.queue = some slots) (hl : (slots.length : Int) = q.cap)
    (hm : q.cap ≤ maxInt)
    (h0 : 0 < q.len) (h1 : q.len ≤ q.cap) (ht : 0 ≤ q.tail) (ht2 : q.tail < q.cap) :
    ∃ r, PopAt q (-1) = some r ∧ r.err = none ∧ load slots q.tail = some r.val ∧
      r.state.queue = some (slots.set q.tail.toNat none) ∧
      r.state.len = q.len - 1 ∧ r.state.cap = q.cap ∧
      r.state.tail = (if q.tail - 1 < 0 then q.tail - 1 + q.cap else q.tail - 1) := by
  obtain ⟨e, he⟩ := load_some (s := slots) ht (by omega)
  have hm9 := hm
  unfold maxInt at hm9
  have e0 : ¬ ineg (-1) > q.len := by
    simp only [ineg, wrapInt]; omega
  have e1 : iadd (iadd q.tail (-1)) 1 = q.tail := by
    simp only [iadd, wrapInt]; omega
  have e2 : isub q.len 1 = q.len - 1 := by
    simp only [isub, wrapInt]; omega
  have e3 : isub q.tail 1 = q.tail - 1 := by
    simp only [isub, wrapInt]; omega
  have st2 := store_eq (s := slots) none ht (by omega)
  unfold PopAt
  rw [hq]
  simp only [if_neg (ne_of_gt h0), if_pos (show (-1 : Int) < 0 by omega), if_neg e0, e1]
  unfold popShift
  simp only [Option.bind_eq_bind, Option.pure_def, if_pos (show q.tail ≥ 0 from ht), he,
    Option.some_bind, if_true, st2]
  refine ⟨_, rfl, rfl, rfl, rfl, ?_, rfl, ?_⟩
  · simp only [popDone, e2]
  · simp only [popDone, e3]
    split
    · simp only [iadd, wrapInt]; omega
    · rfl

/-! ## Sample states are reachable -/

theorem wrappedQueue_reachable : Reachable wrappedQueue := by
  have h0 : Reachable (⟨some [none, none, none], -1, 0, 3⟩ : Queue Nat) :=
    Reachable.new 3 3 _ (by decide) (by decide)
  have h1 := Reachable.push _ (some 1) ⟨⟨some [some 1, none, none], 0, 1, 3⟩, 2, none⟩ h0
    (by decide)
  have h2 := Reachable.push _ (some 2) ⟨⟨some [some 1, some 2, none], 1, 2, 3⟩, 1, none⟩ h1
    (by decide)
  have h3 := Reachable.push _ (some 3) ⟨⟨some [some 1, some 2, some 3], 2, 3, 3⟩, 0, none⟩ h2
    (by decide)
  have h4 := Reachable.popAt _ 0 ⟨⟨some [none, some 2, some 3], 2, 2, 3⟩, some 1, none⟩ h3
    (by decide) (by decide)
  exact Reachable.push _ (some 4) ⟨wrappedQueue, 0, none⟩ h4 (by decide)

theorem halfQueue_reachable : Reachable halfQueue := by
  have h0 : Reachable (⟨some [none, none], -1, 0, 2⟩ : Queue Nat) :=
    Reachable.new 2 2 _ (by decide) (by decide)
  exact Reachable.push _ (some 1) ⟨halfQueue, 1, none⟩ h0 (by decide)

theorem unitQueue_reachable : Reachable unitQueue := by
  have h0 : Reachable (⟨some [none], -1, 0, 1⟩ : Queue Nat) :=
    Reachable.new 1 1 _ (by decide) (by decide)
  exact Reachable.push _ (some 7) ⟨unitQueue, 0, none⟩ h0 (by decide)

/-! ## Specifications on states that satisfy the invariant -/

theorem push_spec {q : Queue α} (hi : Inv q) (x : Option α) (hlt : q.len < q.cap) :
    ∃ r, Push q x = some r ∧ r.err = none ∧ r.val = q.cap - (q.len + 1) ∧
      r.state.len = q.len + 1 ∧ r.state.cap = q.cap ∧ r.state.tail = (q.tail + 1) % q.cap ∧
      (∃ slots, r.state.queue = some slots ∧ load slots r.state.tail = some x) ∧
      contents r.state = contents q ++ [x] ∧ Inv r.state := by
  obtain ⟨slots, hq, hl, hc, hm, h0, h1, ht, ht2, ht3⟩ := hi
  have hinv : Inv q := ⟨slots, hq, hl, hc, hm, h0, h1, ht, ht2, ht3⟩
  have he := push_eval x hq hl hm h0 hlt ht ht2
  refine ⟨_, he, rfl, rfl, rfl, rfl, rfl, ⟨_, rfl, ?_⟩, ?_, push_inv hinv he⟩
  · exact load_set_eq _ _ (Int.emod_nonneg _ (by omega))
      (by rw [hl]; exact Int.emod_lt_of_pos _ hc)
  · exact push_contents x hq hl hm h0 hlt ht ht2 ht3

theorem popAt_zero_spec {q : Queue α} (hi : Inv q) (hpos : 0 < q.len) :
    ∃ r, PopAt q 0 = some r ∧ r.err = none ∧ (contents q).head? = some r.val ∧
      contents r.state = (contents q).tail ∧ r.state.len = q.len - 1 ∧
      r.state.cap = q.cap ∧ Inv r.state := by
  obtain ⟨slots, hq, hl, hc, hm, h0, h1, ht, ht2, ht3⟩ := hi
  have hinv : Inv q := ⟨slots, hq, hl, hc, hm, h0, h1, ht, ht2, ht3⟩
  obtain ⟨r, hr, herr, hv, hs, hlen, hcap, htail⟩ :=
    popAt_zero_eval hq hl hc hm hpos h1 (ht3 hpos) ht2
  exact ⟨r, hr, herr, contents_head hq hc hm hpos h1 (ht3 hpos) ht2 hv,
    contents_remove_head hq hc hm hpos h1 (ht3 hpos) ht2 hs hlen hcap htail, hlen, hcap,
    popAt_inv hinv hr⟩

theorem popAt_last_spec {q : Queue α} (hi : Inv q) (hpos : 0 < q.len) :
    ∃ r, PopAt q (-1) = some r ∧ r.err = none ∧ (contents q).getLast? = some r.val ∧
      contents r.state = (contents q).dropLast ∧ r.state.len = q.len - 1 ∧
      r.state.cap = q.cap ∧ Inv r.state := by
  obtain ⟨slots, hq, hl, hc, hm, h0, h1, ht, ht2, ht3⟩ := hi
  have hinv : Inv q := ⟨slots, hq, hl, hc, hm, h0, h1, ht, ht2, ht3⟩
  obtain ⟨r, hr, herr, hv, hs, hlen, hcap, htail⟩ :=
    popAt_last_eval hq hl hm hpos h1 (ht3 hpos) ht2
  exact ⟨r, hr, herr, contents_last hq hc hm hpos (ht3 hpos) ht2 hv,
    contents_remove_tail hq hc hm hpos h1 (ht3 hpos) ht2 hs hlen hcap htail, hlen, hcap,
    popAt_inv hinv hr⟩

theorem inv_queue_ne_none {q : Queue α} (hi : Inv q) : q.queue ≠ none := by
  obtain ⟨slots, hq, -⟩ := hi
  rw [hq]; exact Option.some_ne_none _

theorem inv_len_nonneg {q : Queue α} (hi : Inv q) : 0 ≤ q.len := by
  obtain ⟨slots, -, -, -, -, h0, -⟩ := hi
  exact h0

theorem pushAll_spec (xs : List (Option α)) :
    ∀ q : Queue α, Inv q → q.len + xs.length ≤ q.cap →
      ∃ p, pushAll q xs = some p ∧ Inv p ∧ contents p = contents q ++ xs ∧
        p.len = q.len + xs.length ∧ p.cap = q.cap := by
  induction xs with
  | nil =>
    intro q hi _
    exact ⟨q, rfl, hi, by simp, by simp, rfl⟩
  | cons x xs ih =>
    intro q hi hle
    simp only [List.length_cons, Nat.cast_add, Nat.cast_one] at hle
    obtain ⟨r, hr, herr, -, hlen, hcap, -, -, hcont, hinv⟩ := push_spec hi x (by omega)
    obtain ⟨p, hp, hpi, hpc, hpl, hpcap⟩ := ih r.state hinv (by omega)
    refine ⟨p, ?_, hpi, ?_, ?_, ?_⟩
    · simp only [pushAll, hr, herr, hp]
    · rw [hpc, hcont]; simp
    · rw [hpl, hlen]; simp only [List.length_cons, Nat.cast_add, Nat.cast_one]; omega
    · rw [hpcap, hcap]

theorem popRepeat_zero_spec (n : Nat) :
    ∀ q : Queue α, Inv q → q.len = n →
      ∃ p, popRepeat 0 n q = some (contents q, p) ∧ p.len = 0 := by
  induction n with
  | zero =>
    intro q hi hn
    have hc := contents_length q (inv_queue_ne_none hi)
    have : contents q = [] := List.length_eq_zero.1 (by rw [hc]; omega)
    exact ⟨q, by simp [popRepeat, this], by simpa using hn⟩
  | succ n ih =>
    intro q hi hn
    simp only [Nat.cast_add, Nat.cast_one] at hn
    obtain ⟨r, hr, herr, hv, hcont, hlen, -, hinv⟩ := popAt_zero_spec hi (by omega)
    obtain ⟨p, hp, hpl⟩ := ih r.state hinv (by omega)
    refine ⟨p, ?_, hpl⟩
    simp only [popRepeat, hr, herr, hp, hcont]
    cases hc : contents q with
    | nil => rw [hc] at hv; cases hv
    | cons a l =>
      rw [hc] at hv
      simp only [List.head?_cons, Option.some.injEq] at hv
      simp [hv]

theorem popRepeat_last_spec (n : Nat) :
    ∀ q : Queue α, Inv q → q.len = n →
      ∃ p, popRepeat (-1) n q = some ((contents q).reverse, p) ∧ p.len = 0 := by
  induction n with
  | zero =>
    intro q hi hn
    have hc := contents_length q (inv_queue_ne_none hi)
    have : contents q = [] := List.length_eq_zero.1 (by rw [hc]; omega)
    exact ⟨q, by simp [popRepeat, this], by simpa using hn⟩
  | succ n ih =>
    intro q hi hn
    simp only [Nat.cast_add, Nat.cast_one] at hn
    obtain ⟨r, hr, herr, hv, hcont, hlen, -, hinv⟩ := popAt_last_spec hi (by omega)
    obtain ⟨p, hp, hpl⟩ := ih r.state hinv (by omega)
    refine ⟨p, ?_, hpl⟩
    have hsplit := List.dropLast_append_getLast? r.val (by rw [hv]; exact rfl)
    simp only [popRepeat, hr, herr, hp, hcont]
    conv_rhs => rw [← hsplit]
    simp

theorem popAt_empty_eval {q : Queue α} (hq : q.queue ≠ none) (hlen : q.len = 0) (index : Int) :
    PopAt q index = some ⟨q, none, some QError.Empty⟩ := by
  unfold PopAt
  split
  · contradiction
  · rw [if_pos hlen]

theorem popAt_out_of_range_eval {q : Queue α} (hq : q.queue ≠ none) (hpos : 0 < q.len)
    {index : Int} (hidx : isInt index) (hmin : index ≠ minInt)
    (h : index > q.len ∨ (index < 0 ∧ -index > q.len)) :
    PopAt q index = some ⟨q, none, some (QError.IndexOutOfRange index q.len)⟩ := by
  obtain ⟨h1, h2⟩ := hidx
  unfold minInt at h1 hmin
  unfold maxInt at h2
  unfold PopAt
  split
  · contradiction
  · rw [if_neg (ne_of_gt hpos)]
    rcases h with h | ⟨hneg, h⟩
    · rw [if_neg (by omega), if_pos h]
    · have : ineg index > q.len := by
        simp only [ineg, wrapInt]; omega
      rw [if_pos hneg, if_pos this]

/-! ## The claims -/

/-- C1 (the code departs from the claim): in the reachable state `wrappedQueue`,
whose contents from head to tail are `2, 3, 4`, logical index `1` is in range, yet
`PopAt(1)` panics instead of returning `3`: the second slice expression of line
139 has the upper bound `cap + 1`, beyond the capacity of the slice. -/
theorem popAt_interior_wrapped_panics :
    Reachable wrappedQueue ∧ contents wrappedQueue = [some 2, some 3, some 4] ∧
      (0 : Int) ≤ 1 ∧ 1 < Len wrappedQueue ∧ PopAt wrappedQueue 1 = none :=
  ⟨wrappedQueue_reachable, by decide, by decide, by decide, by decide⟩

/-- C2: on every non-empty reachable queue `PopAt(0)` returns, without error, the
first element of the head-to-tail contents (the oldest one) and leaves the
contents without their first element, in unchanged order, with the length
decreased by one; repeating the call `len` times returns the contents in
order and empties the queue. -/
theorem popAt_zero_returns_oldest (q : Queue α) (hr : Reachable q) (hne : 0 < Len q) :
    ∃ r, PopAt q 0 = some r ∧ r.err = none ∧ (contents q).head? = some r.val ∧
      contents r.state = (contents q).tail ∧ Len r.state = Len q - 1 ∧
      ∃ p, popRepeat 0 (Len q).toNat q = some (contents q, p) ∧ Len p = 0 := by
  have hi := reachable_inv hr
  obtain ⟨r, h1, h2, h3, h4, h5, -, -⟩ := popAt_zero_spec hi hne
  have h0 := inv_len_nonneg hi
  exact ⟨r, h1, h2, h3, h4, h5, popRepeat_zero_spec _ q hi (Int.toNat_of_nonneg h0).symm⟩

theorem popAt_zero_returns_oldest_witness :
    Reachable wrappedQueue ∧ 0 < Len wrappedQueue ∧
      ∃ r, PopAt wrappedQueue 0 = some r ∧ r.err = none ∧
        (contents wrappedQueue).head? = some r.val ∧
        contents r.state = (contents wrappedQueue).tail ∧
        Len r.state = Len wrappedQueue - 1 ∧
        ∃ p, popRepeat 0 (Len wrappedQueue).toNat wrappedQueue =
          some (contents wrappedQueue, p) ∧ Len p = 0 :=
  ⟨wrappedQueue_reachable, by decide,
    popAt_zero_returns_oldest wrappedQueue wrappedQueue_reachable (by decide)⟩

/-- C3: on every non-empty reachable queue `Pop()` is `PopAt(-1)`: it returns,
without error, the last element of the head-to-tail contents (the most recently
pushed one) and leaves the contents without their last element, with the length
decreased by one; repeating the call `len` times returns the contents in
reverse order and empties the queue. -/
theorem pop_returns_newest (q : Queue α) (hr : Reachable q) (hne : 0 < Len q) :
    Pop q = PopAt q (-1) ∧
      ∃ r, Pop q = some r ∧ r.err = none ∧ (contents q).getLast? = some r.val ∧
        contents r.state = (contents q).dropLast ∧ Len r.state = Len q - 1 ∧
        ∃ p, popRepeat (-1) (Len q).toNat q = some ((contents q).reverse, p) ∧ Len p = 0 := by
  have hi := reachable_inv hr
  obtain ⟨r, h1, h2, h3, h4, h5, -, -⟩ := popAt_last_spec hi hne
  have h0 := inv_len_nonneg hi
  exact ⟨rfl, r, h1, h2, h3, h4, h5,
    popRepeat_last_spec _ q hi (Int.toNat_of_nonneg h0).symm⟩

theorem pop_returns_newest_witness :
    Reachable wrappedQueue ∧ 0 < Len wrappedQueue ∧
      (Pop wrappedQueue = PopAt wrappedQueue (-1) ∧
        ∃ r, Pop wrappedQueue = some r ∧ r.err = none ∧
          (contents wrappedQueue).getLast? = some r.val ∧
          contents r.state = (contents wrappedQueue).dropLast ∧
          Len r.state = Len wrappedQueue - 1 ∧
          ∃ p, popRepeat (-1) (Len wrappedQueue).toNat wrappedQueue =
            some ((contents wrappedQueue).reverse, p) ∧ Len p = 0) :=
  ⟨wrappedQueue_reachable, by decide,
    pop_returns_newest wrappedQueue wrappedQueue_reachable (by decide)⟩

/-- C4: `Push` on a reachable queue that is not full returns without error; the
length grows by exactly one, the tail becomes `(tail + 1) mod cap`, the element
sits in the new tail slot, the head-to-tail contents are the old contents with
the element appended, and the returned integer is `cap - (old len + 1)`, the
vacancy after the push. -/
theorem push_appends (q : Queue α) (hr : Reachable q) (x : Option α) (hlt : Len q < Cap q) :
    ∃ r, Push q x = some r ∧ r.err = none ∧ Len r.state = Len q + 1 ∧
      Cap r.state = Cap q ∧ r.state.tail = (q.tail + 1) % Cap q ∧
      (∃ slots, r.state.queue = some slots ∧ load slots r.state.tail = some x) ∧
      contents r.state = contents q ++ [x] ∧
      r.val = Cap q - (Len q + 1) ∧ r.val = Vacant r.state := by
  have hi := reachable_inv hr
  obtain ⟨r, h1, h2, h3, h4, h5, h6, h7, h8, -⟩ := push_spec hi x hlt
  refine ⟨r, h1, h2, h4, h5, h6, h7, h8, h3, ?_⟩
  obtain ⟨slots, -, -, hc, hm, h0, -⟩ := hi
  have hlt1 : q.len < q.cap := hlt
  unfold maxInt at hm
  rw [h3]
  simp only [Vacant, isub, wrapInt, h4, h5]
  omega

theorem push_appends_witness :
    Reachable halfQueue ∧ Len halfQueue < Cap halfQueue ∧
      ∃ r, Push halfQueue (some 5) = some r ∧ r.err = none ∧
        Len r.state = Len halfQueue + 1 ∧ Cap r.state = Cap halfQueue ∧
        r.state.tail = (halfQueue.tail + 1) % Cap halfQueue ∧
        (∃ slots, r.state.queue = some slots ∧ load slots r.state.tail = some (some 5)) ∧
        contents r.state = contents halfQueue ++ [some 5] ∧
        r.val = Cap halfQueue - (Len halfQueue + 1) ∧ r.val = Vacant r.state :=
  ⟨halfQueue_reachable, by decide,
    push_appends halfQueue halfQueue_reachable (some 5) (by decide)⟩

/-- C5: `Push` on a constructed queue that is full (`len == cap`) returns vacancy
`0` and the error `Full` carrying the capacity, and the state after the call is
the state before it (every slot, `tail`, `len` and `cap`). -/
theorem push_full (q : Queue α) (hq : q.queue ≠ none) (x : Option α)
    (hfull : Len q = Cap q) :
    Push q x = some ⟨q, 0, some (QError.Full (Cap q))⟩ := by
  unfold Push
  split
  · contradiction
  · have hfull1 : q.len = q.cap := hfull
    rw [if_pos hfull1]; rfl

theorem push_full_witness :
    wrappedQueue.queue ≠ none ∧ Len wrappedQueue = Cap wrappedQueue ∧
      Push wrappedQueue (some 9) =
        some ⟨wrappedQueue, 0, some (QError.Full (Cap wrappedQueue))⟩ :=
  ⟨by decide, by decide, push_full wrappedQueue (by decide) (some 9) (by decide)⟩

/-- C6: whenever `NewQueue(c)` returns a queue (its capacity `c` is then
positive), for every list of `c` elements, pushing them all onto that queue
succeeds, and `c` calls of `PopAt(0)` then all succeed, return exactly the list
in its order and leave a queue with `Len() == 0`. -/
theorem round_trip (limit c : Int) (q0 : Queue α) (hm : c ≤ maxInt)
    (hnew : NewQueue limit c = some q0) (xs : List (Option α))
    (hx : (xs.length : Int) = c) :
    0 < c ∧ ∃ q1 q2 : Queue α, pushAll q0 xs = some q1 ∧
      popRepeat 0 xs.length q1 = some (xs, q2) ∧ Len q2 = 0 := by
  obtain ⟨hc, -, hq0⟩ := newQueue_some hnew
  have hi0 := newQueue_inv ⟨by unfold minInt; omega, hm⟩ hnew
  have hcont0 : contents q0 = [] := by
    rw [hq0]
    simp [contents]
  have hlen0 : q0.len = 0 := by rw [hq0]
  have hcap0 : q0.cap = c := by rw [hq0]
  obtain ⟨q1, h1, hi1, hc1, hl1, -⟩ := pushAll_spec xs q0 hi0 (by rw [hlen0, hcap0]; omega)
  obtain ⟨q2, h2, hl2⟩ := popRepeat_zero_spec xs.length q1 hi1 (by rw [hl1, hlen0]; omega)
  rw [hc1, hcont0, List.nil_append] at h2
  exact ⟨hc, q1, q2, h1, h2, hl2⟩

theorem round_trip_witness :
    (2 : Int) ≤ maxInt ∧
      NewQueue 2 2 = some (⟨some [none, none], -1, 0, 2⟩ : Queue Nat) ∧
      (([some 10, some 20] : List (Option Nat)).length : Int) = 2 ∧
      ((0 : Int) < 2 ∧ ∃ q1 q2 : Queue Nat,
        pushAll (⟨some [none, none], -1, 0, 2⟩ : Queue Nat) [some 10, some 20] = some q1 ∧
        popRepeat 0 ([some 10, some 20] : List (Option Nat)).length q1 =
          some ([some 10, some 20], q2) ∧ Len q2 = 0) :=
  ⟨by decide, by decide, by decide,
    round_trip 2 2 (⟨some [none, none], -1, 0, 2⟩ : Queue Nat) (by decide) (by decide)
      [some 10, some 20] (by decide)⟩

/-- C7 (the code departs from the claim): in the reachable state `wrappedQueue`
of length `3`, `N = 2` satisfies `1 ≤ N ≤ len`, yet `PopAt(-2)` panics instead of
returning the second element from the tail: it reaches the same slice expression
of line 139 as `PopAt(1)`. -/
theorem popAt_negative_wrapped_panics :
    Reachable wrappedQueue ∧ (1 : Int) ≤ 2 ∧ 2 ≤ Len wrappedQueue ∧
      PopAt wrappedQueue (-2) = none :=
  ⟨wrappedQueue_reachable, by decide, by decide, by decide⟩

/-- C8 (the code departs from the claim): the smallest `int` is negative and its
magnitude exceeds the length `1` of the reachable state `unitQueue`, yet
`PopAt` panics on it instead of returning `IndexOutOfRange`: `-index` overflows
to `index` itself, the test `-index > len` of line 100 fails, and the slot
index computed from it is negative. -/
theorem popAt_minInt_panics :
    Reachable unitQueue ∧ isInt minInt ∧ minInt < 0 ∧ -minInt > Len unitQueue ∧
      ineg minInt = minInt ∧ PopAt unitQueue minInt = none :=
  ⟨unitQueue_reachable, by decide, by decide, by decide, by decide, by decide⟩

/-- C9: on every reachable queue with `len == 0`, `PopAt(index)` for every index
and `Pop()` return (no panic) a nil element with the error `Empty`, and the
state after the call is the state before it. -/
theorem popAt_empty (q : Queue α) (hr : Reachable q) (hlen : Len q = 0) (index : Int) :
    PopAt q index = some ⟨q, none, some QError.Empty⟩ ∧
      Pop q = some ⟨q, none, some QError.Empty⟩ :=
  ⟨popAt_empty_eval (inv_queue_ne_none (reachable_inv hr)) hlen index,
    popAt_empty_eval (inv_queue_ne_none (reachable_inv hr)) hlen (-1)⟩

theorem popAt_empty_witness :
    Reachable (⟨some [none, none], -1, 0, 2⟩ : Queue Nat) ∧
      Len (⟨some [none, none], -1, 0, 2⟩ : Queue Nat) = 0 ∧
      (PopAt (⟨some [none, none], -1, 0, 2⟩ : Queue Nat) 5 =
          some ⟨⟨some [none, none], -1, 0, 2⟩, none, some QError.Empty⟩ ∧
        Pop (⟨some [none, none], -1, 0, 2⟩ : Queue Nat) =
          some ⟨⟨some [none, none], -1, 0, 2⟩, none, some QError.Empty⟩) :=
  ⟨Reachable.new 2 2 _ (by decide) (by decide), by decide,
    popAt_empty _ (Reachable.new 2 2 _ (by decide) (by decide)) (by decide) 5⟩

/-- C10 (the code departs from the claim): `PopAt` panics in reachable states.
An interior removal in a wrapped run hits the slice bound `cap + 1` of line 139
(`wrappedQueue`, index `1`); the index `len`, which the test `index > len` of
line 105 lets through, reverses the slice bounds of line 126 (`halfQueue`,
index `1`) or reads slot `cap` (`unitQueue`, index `1`); the smallest `int`
passes the test of line 100 and reads a negative slot (`unitQueue`). -/
theorem popAt_panics_on_reachable :
    Reachable wrappedQueue ∧ Reachable halfQueue ∧ Reachable unitQueue ∧
      PopAt wrappedQueue 1 = none ∧ PopAt halfQueue 1 = none ∧
      PopAt unitQueue 1 = none ∧ PopAt unitQueue minInt = none :=
  ⟨wrappedQueue_reachable, halfQueue_reachable, unitQueue_reachable,
    by decide, by decide, by decide, by decide⟩

/-! ## Construction and sequences of pushes -/

theorem newQueue_eval {limit c : Int} (hc : 0 < c) (hl : c ≤ limit) :
    NewQueue limit c = some (⟨some (List.replicate c.toNat none), -1, 0, c⟩ : Queue α) := by
  unfold NewQueue
  rw [if_neg (not_le.2 hc), if_neg (not_lt.2 hl)]

theorem push_full_eval {q : Queue α} (hq : q.queue ≠ none) (x : Option α)
    (hfull : q.len = q.cap) : Push q x = some ⟨q, 0, some (QError.Full q.cap)⟩ := by
  unfold Push
  split
  · contradiction
  · rw [if_pos hfull]

theorem pushSeq_spec (xs : List (Option α)) :
    ∀ q : Queue α, Inv q →
      ∃ p, pushSeq q xs =
          some (List.replicate (min xs.length (q.cap - q.len).toNat) none ++
            List.replicate (xs.length - (q.cap - q.len).toNat) (some (QError.Full q.cap)), p) ∧
        Inv p ∧ p.len = min (q.len + xs.length) q.cap ∧ p.cap = q.cap ∧
        contents p = contents q ++ xs.take (q.cap - q.len).toNat := by
  induction xs with
  | nil =>
    intro q hi
    obtain ⟨slots, hq, hl, hc, hm, h0, h1, ht, ht2, ht3⟩ := hi
    refine ⟨q, by simp [pushSeq], ⟨slots, hq, hl, hc, hm, h0, h1, ht, ht2, ht3⟩, ?_, rfl, by simp⟩
    simp only [List.length_nil, Nat.cast_zero, add_zero]
    omega
  | cons x xs ih =>
    intro q hi
    have hi9 := hi
    obtain ⟨slots, hq, hl, hc, hm, h0, h1, ht, ht2, ht3⟩ := hi9
    by_cases hlt : q.len < q.cap
    · obtain ⟨r, hr, herr, -, hlen, hcap, -, -, hcont, hinv⟩ := push_spec hi x hlt
      obtain ⟨p, hp, hpi, hpl, hpc, hpcont⟩ := ih r.state hinv
      obtain ⟨k, hk⟩ : ∃ k : Nat, (q.cap - q.len).toNat = k + 1 :=
        ⟨(q.cap - q.len).toNat - 1, by omega⟩
      have hk2 : (r.state.cap - r.state.len).toNat = k := by rw [hlen, hcap]; omega
      rw [hk2, hcap] at hp
      rw [hk2] at hpcont
      refine ⟨p, ?_, hpi, ?_, by rw [hpc, hcap], ?_⟩
      · simp only [pushSeq, hr, hp, herr, hk, List.length_cons, Nat.add_sub_add_right,
          Nat.add_min_add_right, List.replicate_succ, List.cons_append]
      · rw [hpl, hlen, hcap]
        simp only [List.length_cons, Nat.cast_add, Nat.cast_one]
        omega
      · rw [hpcont, hcont, hk]
        simp
    · have hfull : q.len = q.cap := by omega
      have hr := push_full_eval (inv_queue_ne_none hi) x hfull
      obtain ⟨p, hp, hpi, hpl, hpc, hpcont⟩ := ih q hi
      have hk : (q.cap - q.len).toNat = 0 := by omega
      rw [hk] at hp hpcont
      refine ⟨p, ?_, hpi, ?_, hpc, ?_⟩
      · simp only [pushSeq, hr, hp, hk, List.length_cons, Nat.sub_zero, Nat.min_zero,
          List.replicate_zero, List.nil_append, List.replicate_succ]
      · rw [hpl]
        simp only [List.length_cons, Nat.cast_add, Nat.cast_one]
        omega
      · rw [hpcont, hk]
        simp

theorem nilQueue_reachable : Reachable nilQueue := by
  have h0 : Reachable (⟨some [none], -1, 0, 1⟩ : Queue Nat) :=
    Reachable.new 1 1 _ (by decide) (by decide)
  exact Reachable.push _ none ⟨nilQueue, 0, none⟩ h0 (by decide)

theorem straightQueue_reachable : Reachable straightQueue := by
  have h0 : Reachable (⟨some [none, none, none, none], -1, 0, 4⟩ : Queue Nat) :=
    Reachable.new 4 4 _ (by decide) (by decide)
  have h1 := Reachable.push _ (some 1) ⟨⟨some [some 1, none, none, none], 0, 1, 4⟩, 3, none⟩ h0
    (by decide)
  have h2 := Reachable.push _ (some 2) ⟨⟨some [some 1, some 2, none, none], 1, 2, 4⟩, 2, none⟩ h1
    (by decide)
  have h3 := Reachable.push _ (some 3) ⟨⟨some [some 1, some 2, some 3, none], 2, 3, 4⟩, 1, none⟩
    h2 (by decide)
  exact Reachable.push _ (some 4) ⟨straightQueue, 0, none⟩ h3 (by decide)

theorem popAt_two_ends_eval {q : Queue α} (hm : q.cap ≤ maxInt)
    (h0 : 0 < q.len) (h1 : q.len ≤ q.cap) (ht : 0 ≤ q.tail) (ht2 : q.tail < q.cap)
    {n : Int} (hn1 : 1 ≤ n) (hn2 : n ≤ q.len) :
    iadd (iadd q.tail (-n)) 1 = q.tail - n + 1 ∧
      iadd (iadd (isub q.tail q.len) 1) (q.len - n) = q.tail - n + 1 ∧
      PopAt q (-n) = PopAt q (q.len - n) := by
  unfold maxInt at hm
  have e1 : iadd (iadd q.tail (-n)) 1 = q.tail - n + 1 := by
    simp only [iadd, wrapInt]; omega
  have e2 : iadd (iadd (isub q.tail q.len) 1) (q.len - n) = q.tail - n + 1 := by
    simp only [iadd, isub, wrapInt]; omega
  have e3 : ¬ ineg (-n) > q.len := by
    simp only [ineg, wrapInt]; omega
  refine ⟨e1, e2, ?_⟩
  unfold PopAt
  split
  · rfl
  · rw [if_neg (ne_of_gt h0), if_neg (ne_of_gt h0), if_pos (show -n < 0 by omega), if_neg e3,
      if_neg (show ¬ q.len - n < 0 by omega), if_neg (show ¬ q.len - n > q.len by omega), e1, e2]

/-! ## The claims on construction, sequences of pushes and addressing -/

/-- C11: whenever `NewQueue(c)` returns a queue (its capacity `c` is then
positive), for every list of `n` elements pushed one after the other onto that
queue, no call panics, exactly the first `min n c` calls return no error and
the others return `Full`, and the final queue has `Len() == min n c`,
`Cap() == c` and `Vacant() == c - Len()`; its contents are the elements of the
successful pushes in order. -/
theorem pushes_fill_to_capacity (limit c : Int) (q0 : Queue α) (hm : c ≤ maxInt)
    (hnew : NewQueue limit c = some q0) (xs : List (Option α)) :
    0 < c ∧ ∃ p : Queue α,
      pushSeq q0 xs =
        some (List.replicate (min xs.length c.toNat) none ++
          List.replicate (xs.length - c.toNat) (some (QError.Full c)), p) ∧
      Len p = min (xs.length : Int) c ∧ Cap p = c ∧ Vacant p = c - Len p ∧
      contents p = xs.take c.toNat := by
  obtain ⟨hc, -, hq0⟩ := newQueue_some hnew
  have hi0 := newQueue_inv ⟨by unfold minInt; omega, hm⟩ hnew
  obtain ⟨p, hp, hpi, hpl, hpc, hpcont⟩ := pushSeq_spec xs q0 hi0
  have hcont0 : contents q0 = [] := by
    rw [hq0]
    simp [contents]
  have hlen0 : q0.len = 0 := by rw [hq0]
  have hcap0 : q0.cap = c := by rw [hq0]
  rw [hlen0, hcap0] at hp hpl hpcont
  rw [hcap0] at hpc
  simp only [sub_zero, zero_add] at hp hpl hpcont
  rw [hcont0, List.nil_append] at hpcont
  refine ⟨hc, p, hp, hpl, hpc, ?_, hpcont⟩
  have hpl1 : p.len = min (xs.length : Int) c := hpl
  unfold maxInt at hm
  simp only [Vacant, Len, isub, wrapInt, hpc]
  omega

theorem pushes_fill_to_capacity_witness :
    (2 : Int) ≤ maxInt ∧
      NewQueue 2 2 = some (⟨some [none, none], -1, 0, 2⟩ : Queue Nat) ∧
      ((0 : Int) < 2 ∧ ∃ p : Queue Nat,
        pushSeq (⟨some [none, none], -1, 0, 2⟩ : Queue Nat) [some 1, some 2, some 3] =
          some (List.replicate
              (min ([some 1, some 2, some 3] : List (Option Nat)).length (2 : Int).toNat) none ++
            List.replicate (([some 1, some 2, some 3] : List (Option Nat)).length - (2 : Int).toNat)
              (some (QError.Full 2)), p) ∧
        Len p = min ((([some 1, some 2, some 3] : List (Option Nat)).length : Nat) : Int) 2 ∧
        Cap p = 2 ∧ Vacant p = 2 - Len p ∧
        contents p = ([some 1, some 2, some 3] : List (Option Nat)).take (2 : Int).toNat) :=
  ⟨by decide, by decide,
    pushes_fill_to_capacity 2 2 (⟨some [none, none], -1, 0, 2⟩ : Queue Nat) (by decide)
      (by decide) [some 1, some 2, some 3]⟩

/-- C13, counterexample: with the allocation limit of linux/amd64, `2^44` slots,
the capacity `2^44 + 1` is positive and `NewQueue` still returns no queue: it
panics in `make`. -/
theorem newQueue_refuses_positive :
    (0 : Int) < 17592186044417 ∧
      (NewQueue 17592186044416 17592186044417 : Option (Queue Nat)) = none :=
  ⟨by decide, by decide⟩

/-- C13, as amended: `NewQueue(capacity)` panics instead of returning a queue if
and only if `capacity <= 0` or `make` cannot allocate `capacity` slots, and a
queue it returns has exactly the requested capacity, which is positive, as `cap`
and as the number of slots: nothing is clamped or defaulted. -/
theorem newQueue_refuses_iff (α : Type) (limit capacity : Int) :
    ((NewQueue limit capacity : Option (Queue α)) = none ↔
        capacity ≤ 0 ∨ limit < capacity) ∧
      ∀ q : Queue α, NewQueue limit capacity = some q →
        0 < capacity ∧ Cap q = capacity ∧
          ∃ slots, q.queue = some slots ∧ (slots.length : Int) = capacity := by
  refine ⟨⟨fun hn => ?_, fun hor => ?_⟩, fun q hq => ?_⟩
  · by_contra hcon
    rw [newQueue_eval (by omega) (by omega)] at hn
    cases hn
  · unfold NewQueue
    rcases hor with h | h
    · rw [if_pos h]
    · by_cases h0 : capacity ≤ 0
      · rw [if_pos h0]
      · rw [if_neg h0, if_pos (show capacity > limit from h)]
  · obtain ⟨hc, -, rfl⟩ := newQueue_some hq
    refine ⟨hc, rfl, _, rfl, ?_⟩
    simp only [List.length_replicate]
    omega

/-- C20: on every non-empty reachable queue and for every `N` with
`1 ≤ N ≤ len`, `PopAt(-N)` and `PopAt(len - N)` compute the same slot index
`tail - N + 1` (before the wrap of a negative value) and are the same call:
the same panic, or the same returned element, error and final state. -/
theorem popAt_two_ends_agree (q : Queue α) (hr : Reachable q) (hne : 0 < Len q) (n : Int)
    (hn1 : 1 ≤ n) (hn2 : n ≤ Len q) :
    iadd (iadd q.tail (-n)) 1 = iadd (iadd (isub q.tail q.len) 1) (Len q - n) ∧
      PopAt q (-n) = PopAt q (Len q - n) := by
  obtain ⟨slots, hq, hl, hc, hm, h0, h1, ht, ht2, ht3⟩ := reachable_inv hr
  obtain ⟨e1, e2, e3⟩ := popAt_two_ends_eval hm hne h1 (ht3 hne) ht2 hn1 hn2
  exact ⟨e1.trans e2.symm, e3⟩

theorem popAt_two_ends_agree_witness :
    Reachable straightQueue ∧ 0 < Len straightQueue ∧ (1 : Int) ≤ 3 ∧ 3 ≤ Len straightQueue ∧
      (iadd (iadd straightQueue.tail (-3)) 1 =
          iadd (iadd (isub straightQueue.tail straightQueue.len) 1) (Len straightQueue - 3) ∧
        PopAt straightQueue (-3) = PopAt straightQueue (Len straightQueue - 3)) :=
  ⟨straightQueue_reachable, by decide, by decide, by decide,
    popAt_two_ends_agree straightQueue straightQueue_reachable (by decide) 3 (by decide)
      (by decide)⟩

/-! ## The shift of an interior removal -/

theorem load_none_of_out {β : Type} {s : List β} {j : Int} (h : j < 0 ∨ (s.length : Int) ≤ j) :
    load s j = none := by
  unfold load
  rw [if_neg (by omega)]

theorem sliceCopy_shift_load {β : Type} {s s1 : List β} {r t : Int} (hr : 0 ≤ r)
    (ht : t < s.length) (h : sliceCopy s r t (r + 1) (t + 1) = some s1) (j : Int) :
    load s1 j = if r ≤ j ∧ j < t then load s (j + 1) else load s j := by
  have hlen := sliceCopy_length h
  unfold sliceCopy at h
  split at h
  · simp only [Option.some.injEq] at h
    by_cases hj : 0 ≤ j ∧ j < s.length
    · obtain ⟨hj0, hj1⟩ := hj
      have hjn : j.toNat < s.length := by omega
      have hmin : min (t - r) (t + 1 - (r + 1)) = t - r := by omega
      rw [load_eq hj0 (by omega), ← h, List.getElem?_mapIdx, List.getElem?_eq_getElem hjn,
        Option.map_some', hmin, Int.toNat_of_nonneg hj0]
      by_cases hin : r ≤ j ∧ j < t
      · have hc : r ≤ j ∧ j < r + (t - r) := by constructor <;> omega
        have hj2 : (j - r + (r + 1)).toNat < s.length := by omega
        have hj3 : (j - r + (r + 1)) = j + 1 := by omega
        rw [if_pos hc, if_pos hin, load_eq (by omega) (by omega), hj3,
          List.getElem?_eq_getElem (by omega)]
        rfl
      · have hc : ¬ (r ≤ j ∧ j < r + (t - r)) := by omega
        rw [if_neg hc, if_neg hin, load_eq hj0 hj1, List.getElem?_eq_getElem hjn]
    · have h1 : load s1 j = none := load_none_of_out (by omega)
      have h2 : load s j = none := load_none_of_out (by omega)
      rw [h1, h2]
      split
      · rename_i hin
        exact absurd hin (by omega)
      · rfl
  · cases h

theorem sliceCopy_none_of_high {β : Type} {s : List β} {a b c d : Int}
    (h : d < c ∨ (s.length : Int) < d) : sliceCopy s a b c d = none := by
  unfold sliceCopy
  rw [if_neg]
  unfold sliceOK
  omega

theorem sliceCopy_none_of_low {β : Type} {s : List β} {a b c d : Int}
    (h : b < a) : sliceCopy s a b c d = none := by
  unfold sliceCopy
  rw [if_neg]
  unfold sliceOK
  omega

theorem load_range {β : Type} {s : List β} {i : Int} {e : β} (h : load s i = some e) :
    0 ≤ i ∧ i < s.length := by
  unfold load at h
  split at h
  · assumption
  · cases h

theorem popShift_cases {q : Queue α} {slots : List (Option α)} {ri : Int}
    {r : Ret (Queue α) (Option α)}
    (hl : (slots.length : Int) = q.cap) (hm : q.cap ≤ maxInt)
    (h0 : 0 < q.len) (h1 : q.len ≤ q.cap) (ht : 0 ≤ q.tail) (ht2 : q.tail < q.cap)
    (hri0 : minInt ≤ ri) (hri : 0 ≤ ri → q.tail - q.len + 1 ≤ ri ∧ ri ≤ q.tail + 1)
    (h : popShift q slots ri = some r) :
    r.err = none ∧ r.state.len = q.len - 1 ∧ r.state.cap = q.cap ∧
      ((load slots q.tail = some r.val ∧ (ri = q.tail ∨ ri + q.cap = q.tail) ∧
          r.state.queue = some (slots.set q.tail.toNat none) ∧
          r.state.tail = (if q.tail - 1 < 0 then q.tail - 1 + q.cap else q.tail - 1)) ∨
        (load slots (headIndex q) = some r.val ∧ headIndex q ≠ q.tail ∧
          (ri = headIndex q ∨ ri + q.cap = headIndex q) ∧
          r.state.queue = some (slots.set (headIndex q).toNat none) ∧
          r.state.tail = q.tail) ∨
        (load slots ri = some r.val ∧ q.tail - q.len + 1 ≤ ri ∧ 0 ≤ ri ∧ ri < q.tail ∧
          ri ≠ headIndex q ∧
          ∃ s1, sliceCopy slots ri q.tail (ri + 1) (q.tail + 1) = some s1 ∧
            r.state.queue = some (s1.set q.tail.toNat none) ∧
            r.state.tail = q.tail - 1)) := by
  have hm9 := hm
  unfold maxInt at hm9
  unfold minInt at hri0
  have e2 : isub q.len 1 = q.len - 1 := by
    simp only [isub, wrapInt]; omega
  have e3 : isub q.tail 1 = q.tail - 1 := by
    simp only [isub, wrapInt]; omega
  have e4 : iadd q.tail 1 = q.tail + 1 := by
    simp only [iadd, wrapInt]; omega
  have e6 : (if q.tail - 1 < 0 then iadd (q.tail - 1) q.cap else q.tail - 1) =
      (if q.tail - 1 < 0 then q.tail - 1 + q.cap else q.tail - 1) := by
    split
    · simp only [iadd, wrapInt]; omega
    · rfl
  have st2 := store_eq (s := slots) none ht (by omega)
  unfold popShift at h
  simp only [Option.bind_eq_bind, Option.pure_def] at h
  by_cases hge : ri ≥ 0
  · rw [if_pos hge] at h
    obtain ⟨e, he, h⟩ := Option.bind_eq_some.1 h
    obtain ⟨hr0, hr1⟩ := load_range he
    by_cases htl : ri = q.tail
    · rw [if_pos htl, st2] at h
      simp only [Option.some_bind, Option.some.injEq] at h
      subst h
      rw [htl] at he
      refine ⟨rfl, ?_, rfl, Or.inl ⟨he, Or.inl htl, rfl, ?_⟩⟩
      · simp only [popDone, e2]
      · simp only [popDone, e3, e6]
    · rw [if_neg htl] at h
      by_cases hhd : ri = headIndex q
      · rw [if_pos hhd, store_eq (s := slots) none hr0 hr1] at h
        simp only [Option.some_bind, Option.some.injEq] at h
        subst h
        rw [hhd] at he htl
        refine ⟨rfl, ?_, rfl, Or.inr (Or.inl ⟨he, htl, Or.inl hhd, by rw [hhd]; rfl, ?_⟩)⟩
        · simp only [popDone, e2]
        · simp only [popDone, if_neg (not_lt.2 ht)]
      · rw [if_neg hhd, e4] at h
        obtain ⟨s1, hs1, h⟩ := Option.bind_eq_some.1 h
        have hlt : ri < q.tail := by
          by_contra hcon
          rw [sliceCopy_none_of_low (by omega)] at hs1
          cases hs1
        have e5 : iadd ri 1 = ri + 1 := by
          simp only [iadd, wrapInt]; omega
        rw [e5] at hs1
        have hs1l := sliceCopy_length hs1
        rw [store_eq (s := s1) none ht (by omega)] at h
        simp only [Option.some_bind, Option.some.injEq] at h
        subst h
        refine ⟨rfl, ?_, rfl, Or.inr (Or.inr ⟨he, (hri hge).1, hr0, hlt, hhd, s1, hs1, rfl, ?_⟩)⟩
        · simp only [popDone, e2]
        · simp only [popDone, e3]
          rw [if_neg (by omega)]
  · rw [if_neg hge] at h
    have e7 : iadd ri q.cap = ri + q.cap := by
      simp only [iadd, wrapInt]; omega
    rw [e7] at h
    obtain ⟨e, he, h⟩ := Option.bind_eq_some.1 h
    obtain ⟨hr0, hr1⟩ := load_range he
    by_cases htl : ri + q.cap = q.tail
    · rw [if_pos htl, st2] at h
      simp only [Option.some_bind, Option.some.injEq] at h
      subst h
      rw [htl] at he
      refine ⟨rfl, ?_, rfl, Or.inl ⟨he, Or.inr htl, rfl, ?_⟩⟩
      · simp only [popDone, e2]
      · simp only [popDone, e3, e6]
    rw [if_neg htl] at h
    by_cases hhd : ri + q.cap = headIndex q
    · rw [if_pos hhd, store_eq (s := slots) none hr0 hr1] at h
      simp only [Option.some_bind, Option.some.injEq] at h
      subst h
      rw [hhd] at he htl
      refine ⟨rfl, ?_, rfl, Or.inr (Or.inl ⟨he, htl, Or.inr hhd, by rw [hhd]; rfl, ?_⟩)⟩
      · simp only [popDone, e2]
      · simp only [popDone, if_neg (not_lt.2 ht)]
    · rw [if_neg hhd, sliceCopy_none_of_high (by
        simp only [iadd, wrapInt]; omega)] at h
      cases h

theorem wrapInt_range (x : Int) : minInt ≤ wrapInt x ∧ wrapInt x ≤ maxInt := by
  unfold wrapInt minInt maxInt
  constructor <;> omega

theorem popAt_cases {q : Queue α} {slots : List (Option α)} {index : Int}
    {r : Ret (Queue α) (Option α)} (hq : q.queue = some slots) (hm : q.cap ≤ maxInt)
    (h0 : 0 ≤ q.len) (h1 : q.len ≤ q.cap) (ht : -1 ≤ q.tail) (ht2 : q.tail < q.cap)
    (hidx : isInt index) (h : PopAt q index = some r) :
    (∃ e, r = ⟨q, none, some e⟩) ∨
      (0 < q.len ∧ ∃ ri, minInt ≤ ri ∧ (0 ≤ ri → q.tail - q.len + 1 ≤ ri ∧ ri ≤ q.tail + 1) ∧
        popShift q slots ri = some r) := by
  obtain ⟨hi1, hi2⟩ := hidx
  unfold minInt at hi1
  unfold maxInt at hi2 hm
  unfold PopAt at h
  rw [hq] at h
  simp only at h
  split at h
  · exact Or.inl ⟨_, (Option.some.inj h).symm⟩
  · have hpos : 0 < q.len := by omega
    split at h <;> split at h
    · exact Or.inl ⟨_, (Option.some.inj h).symm⟩
    · rename_i hneg hle
      refine Or.inr ⟨hpos, _, (wrapInt_range _).1, ?_, h⟩
      simp only [ineg, wrapInt] at hle
      simp only [iadd, wrapInt]
      intro hri
      constructor <;> omega
    · exact Or.inl ⟨_, (Option.some.inj h).symm⟩
    · rename_i hneg hle
      refine Or.inr ⟨hpos, _, (wrapInt_range _).1, ?_, h⟩
      simp only [iadd, isub, wrapInt]
      intro hri
      constructor <;> omega

/-! ## Occupancy of the slot array -/

theorem occupancy_new (P : Option α → Prop) {limit c : Int} {q : Queue α}
    (h : NewQueue limit c = some q) : Occupancy P q := by
  obtain ⟨hc, -, rfl⟩ := newQueue_some h
  intro slots hs j hj0 hj1
  cases hs
  have hj1 : j < c := hj1
  constructor
  · intro _
    have hj : j.toNat < c.toNat := by omega
    rw [load_eq hj0 (by simp only [List.length_replicate]; omega)]
    simp [List.getElem?_replicate, hj]
  · intro hout
    exfalso
    apply hout
    unfold outsideRun
    constructor
    · right; show (-1 : Int) < j; omega
    · show j < -1 - 0 + 1 + c; omega

theorem occupancy_push {P : Option α → Prop} {q : Queue α} {x : Option α}
    {r : Ret (Queue α) Int} (hi : Inv q) (ho : Occupancy P q) (hx : P x)
    (h : Push q x = some r) : Occupancy P r.state := by
  have hi9 := hi
  obtain ⟨slots, hq, hl, hc, hm, h0, h1, ht, ht2, ht3⟩ := hi9
  by_cases hlt : q.len < q.cap
  · rw [push_eval x hq hl hm h0 hlt ht ht2] at h
    cases h
    have e4 : ((q.tail + 1) % q.cap = q.tail + 1 ∧ q.tail + 1 < q.cap) ∨
        (q.tail + 1 = q.cap ∧ (q.tail + 1) % q.cap = 0) := by
      by_cases h : q.tail + 1 = q.cap
      · right; exact ⟨h, by rw [h, Int.emod_self]⟩
      · left; exact ⟨Int.emod_eq_of_lt (by omega) (by omega), by omega⟩
    generalize (q.tail + 1) % q.cap = t at e4
    have hr : 0 ≤ t ∧ t < q.cap := by constructor <;> omega
    intro s1 hs1 j hj0 hj1
    cases hs1
    have hj1 : j < q.cap := hj1
    have hold := ho slots hq j hj0 hj1
    unfold outsideRun at hold ⊢
    simp only []
    by_cases hjt : j = t
    · subst hjt
      rw [load_set_eq _ _ hr.1 (by omega)]
      constructor
      · intro hout; exfalso; omega
      · intro _; exact ⟨x, rfl, hx⟩
    · rw [load_set_ne _ _ hr.1 hj0 (Ne.symm hjt)]
      constructor
      · intro hout; exact hold.1 (by omega)
      · intro hout; exact hold.2 (by omega)
  · have hfull : q.len = q.cap := by omega
    rw [push_full_eval (inv_queue_ne_none hi) x hfull] at h
    cases h
    exact ho

theorem occupancy_popAt {P : Option α → Prop} {q : Queue α} {index : Int}
    {r : Ret (Queue α) (Option α)} (hi : Inv q) (ho : Occupancy P q) (hidx : isInt index)
    (h : PopAt q index = some r) : Occupancy P r.state := by
  obtain ⟨slots, hq, hl, hc, hm, h0, h1, ht, ht2, ht3⟩ := hi
  rcases popAt_cases hq hm h0 h1 ht ht2 hidx h with ⟨e, rfl⟩ | ⟨hpos, ri, hri0, hri, hsh⟩
  · exact ho
  have ht0 := ht3 hpos
  obtain ⟨hh0, hh1, -, hh3⟩ := headIndex_spec hc hm hpos h1 ht0 ht2
  obtain ⟨-, hlen, hcap, hcase⟩ := popShift_cases hl hm hpos h1 ht0 ht2 hri0 hri hsh
  intro s1 hs1 j hj0 hj1
  rw [hcap] at hj1
  have hold := ho slots hq j hj0 hj1
  unfold outsideRun at hold ⊢
  rw [hlen, hcap]
  rcases hcase with ⟨-, -, hqs, htl⟩ | ⟨-, hne, -, hqs, htl⟩ | ⟨-, hlo, hr0, hlt, -, s2, hs2, hqs, htl⟩
  · rw [hqs] at hs1
    cases hs1
    rw [htl]
    by_cases hjt : j = q.tail
    · subst hjt
      rw [load_set_eq _ _ ht0 (by omega)]
      constructor
      · intro _; rfl
      · intro hout; exfalso; split at hout <;> omega
    · rw [load_set_ne _ _ ht0 hj0 (Ne.symm hjt)]
      constructor
      · intro hout; exact hold.1 (by split at hout <;> omega)
      · intro hout; exact hold.2 (by split at hout <;> omega)
  · rw [hqs] at hs1
    cases hs1
    rw [htl]
    by_cases hjt : j = headIndex q
    · rw [hjt, load_set_eq _ _ hh0 (by omega)]
      constructor
      · intro _; rfl
      · intro hout; exfalso; omega
    · rw [load_set_ne _ _ hh0 hj0 (Ne.symm hjt)]
      constructor
      · intro hout; exact hold.1 (by omega)
      · intro hout; exact hold.2 (by omega)
  · rw [hqs] at hs1
    cases hs1
    rw [htl]
    have hs2l := sliceCopy_length hs2
    have hsh := sliceCopy_shift_load hr0 (by omega) hs2
    by_cases hjt : j = q.tail
    · subst hjt
      rw [load_set_eq _ _ ht0 (by omega)]
      constructor
      · intro _; rfl
      · intro hout; exfalso; omega
    · rw [load_set_ne _ _ ht0 hj0 (Ne.symm hjt), hsh j]
      by_cases hin : ri ≤ j ∧ j < q.tail
      · rw [if_pos hin]
        have hold1 := ho slots hq (j + 1) (by omega) (by omega)
        unfold outsideRun at hold1
        constructor
        · intro hout; exfalso; omega
        · intro _; exact hold1.2 (by omega)
      · rw [if_neg hin]
        constructor
        · intro hout; exact hold.1 (by omega)
        · intro hout; exact hold.2 (by omega)

/-! ## Reachability with a construction capacity -/

theorem push_cap {q : Queue α} {x : Option α} {r : Ret (Queue α) Int}
    (h : Push q x = some r) : r.state.cap = q.cap := by
  unfold Push at h
  split at h
  · cases h
  · split at h
    · cases h; rfl
    · simp only at h
      split at h
      · cases h
      · cases h; rfl

theorem popAt_cap {q : Queue α} {index : Int} {r : Ret (Queue α) (Option α)}
    (h : PopAt q index = some r) : r.state.cap = q.cap := by
  unfold PopAt at h
  split at h
  · cases h
  · split at h
    · cases h; rfl
    · split at h <;> split at h
      · cases h; rfl
      · obtain ⟨s, t, e, -, -, rfl⟩ := popShift_shape h
        rfl
      · cases h; rfl
      · obtain ⟨s, t, e, -, -, rfl⟩ := popShift_shape h
        rfl

theorem reachableVia_reachable {P : Option α → Prop} {c : Int} {q : Queue α}
    (h : ReachableVia P c q) : Reachable q := by
  induction h with
  | new limit q hc hq => exact Reachable.new limit c q hc hq
  | push q x r _ _ hp ih => exact Reachable.push q x r ih hp
  | popAt q index r _ hidx hp ih => exact Reachable.popAt q index r ih hidx hp

theorem reachable_reachableVia {q : Queue α} (h : Reachable q) :
    ∃ c, ReachableVia (fun _ => True) c q := by
  induction h with
  | new limit c q hc hq => exact ⟨c, ReachableVia.new limit q hc hq⟩
  | push q x r _ hp ih =>
    obtain ⟨c, hc⟩ := ih
    exact ⟨c, ReachableVia.push q x r hc trivial hp⟩
  | popAt q index r _ hidx hp ih =>
    obtain ⟨c, hc⟩ := ih
    exact ⟨c, ReachableVia.popAt q index r hc hidx hp⟩

theorem reachableVia_occupancy {P : Option α → Prop} {c : Int} {q : Queue α}
    (h : ReachableVia P c q) : q.cap = c ∧ Occupancy P q := by
  induction h with
  | new limit q hc hq =>
    refine ⟨?_, occupancy_new P hq⟩
    obtain ⟨-, -, rfl⟩ := newQueue_some hq
    rfl
  | push q x r hr hx hp ih =>
    exact ⟨(push_cap hp).trans ih.1,
      occupancy_push (reachable_inv (reachableVia_reachable hr)) ih.2 hx hp⟩
  | popAt q index r hr hidx hp ih =>
    exact ⟨(popAt_cap hp).trans ih.1,
      occupancy_popAt (reachable_inv (reachableVia_reachable hr)) ih.2 hidx hp⟩

theorem outsideRun_of_not_logical {q : Queue α} (hc : 0 < q.cap) (hm : q.cap ≤ maxInt)
    (h0 : 0 ≤ q.len) (ht : -1 ≤ q.tail)
    (ht3 : 0 < q.len → 0 ≤ q.tail) {j : Int} (hj0 : 0 ≤ j) (hj1 : j < q.cap)
    (h : ∀ i, 0 ≤ i → i < q.len → logicalSlot q i ≠ j) : outsideRun q j := by
  by_contra hout
  unfold outsideRun at hout
  have hpos : 0 < q.len := by omega
  have htl := ht3 hpos
  by_cases hlow : q.tail - q.len + 1 ≤ j ∧ j ≤ q.tail
  · apply h (j - (q.tail - q.len + 1)) (by omega) (by omega)
    unfold maxInt at hm
    simp only [logicalSlot, iadd, isub, wrapInt]
    split <;> omega
  · apply h (j - (q.tail - q.len + 1 + q.cap)) (by omega) (by omega)
    unfold maxInt at hm
    simp only [logicalSlot, iadd, isub, wrapInt]
    split <;> omega

theorem not_outsideRun_logical {q : Queue α} (hc : 0 < q.cap) (hm : q.cap ≤ maxInt)
    (h1 : q.len ≤ q.cap) (ht : 0 ≤ q.tail) (ht2 : q.tail < q.cap)
    {i : Int} (hi0 : 0 ≤ i) (hi : i < q.len) : ¬ outsideRun q (logicalSlot q i) := by
  have hs := logicalSlot_spec hc hm h1 ht ht2 hi0 hi
  unfold outsideRun
  omega

theorem logicalSlot_emod {q : Queue α} (hc : 0 < q.cap) (hm : q.cap ≤ maxInt)
    (h1 : q.len ≤ q.cap) (ht : 0 ≤ q.tail) (ht2 : q.tail < q.cap)
    {i : Int} (hi0 : 0 ≤ i) (hi : i < q.len) :
    logicalSlot q i = (q.tail - q.len + 1 + i) % q.cap := by
  obtain ⟨hs0, hs1, hs | hs⟩ := logicalSlot_spec hc hm h1 ht ht2 hi0 hi
  · rw [← hs, Int.emod_eq_of_lt hs0 hs1]
  · rw [← Int.add_emod_self, ← hs, Int.emod_eq_of_lt hs0 hs1]

theorem logicalSlot_inj {q : Queue α} (hc : 0 < q.cap) (hm : q.cap ≤ maxInt)
    (h1 : q.len ≤ q.cap) (ht : 0 ≤ q.tail) (ht2 : q.tail < q.cap)
    {i k : Int} (hi0 : 0 ≤ i) (hi : i < q.len) (hk0 : 0 ≤ k) (hk : k < q.len)
    (h : logicalSlot q i = logicalSlot q k) : i = k := by
  have hs := logicalSlot_spec hc hm h1 ht ht2 hi0 hi
  have hs2 := logicalSlot_spec hc hm h1 ht ht2 hk0 hk
  omega

/-! ## The claim on the state invariant -/

/-- C15, counterexample: after `NewQueue(1)` and `Push(nil)` the queue has
length `1`, its run is slot `0`, and that slot holds `nil`: a slot of the run
that holds no element. -/
theorem occupancy_fails_after_nil_push :
    Reachable nilQueue ∧ Len nilQueue = 1 ∧ logicalSlot nilQueue 0 = 0 ∧
      nilQueue.queue = some [none] ∧
      ¬ (∀ i : Int, 0 ≤ i → i < Len nilQueue →
          ∃ v : Nat, load ([none] : List (Option Nat)) (logicalSlot nilQueue i) = some (some v)) := by
  refine ⟨nilQueue_reachable, by decide, by decide, rfl, fun h => ?_⟩
  obtain ⟨v, hv⟩ := h 0 (by decide) (by decide)
  have hnil : load ([none] : List (Option Nat)) (logicalSlot nilQueue 0) = some none := by
    decide
  rw [hnil] at hv
  cases hv

/-- C15, as amended: every state reachable from `NewQueue(c)` by calls of `Push`
and `PopAt` (returning an error or not), all pushed elements satisfying `P`,
has `0 ≤ len ≤ cap`, `cap` and the number of slots equal to `c`, and
`0 ≤ tail < cap` as soon as `len > 0`. The run consists of the `len` distinct
slots `(tail - len + 1 + i) mod cap` for `i = 0 .. len - 1`, the last of them
being `tail`; each holds a value that satisfies `P` (an element, when no `nil`
was pushed), and every slot outside the run is absent. -/
theorem state_invariant (P : Option α → Prop) (c : Int) (q : Queue α)
    (h : ReachableVia P c q) :
    0 ≤ Len q ∧ Len q ≤ Cap q ∧ Cap q = c ∧
      ∃ slots, q.queue = some slots ∧ (slots.length : Int) = c ∧
        (0 < Len q → 0 ≤ q.tail ∧ q.tail < Cap q ∧ logicalSlot q (Len q - 1) = q.tail) ∧
        (∀ i : Int, 0 ≤ i → i < Len q →
          logicalSlot q i = (q.tail - Len q + 1 + i) % Cap q ∧
            0 ≤ logicalSlot q i ∧ logicalSlot q i < Cap q ∧
            ∃ e, load slots (logicalSlot q i) = some e ∧ P e) ∧
        (∀ i k : Int, 0 ≤ i → i < Len q → 0 ≤ k → k < Len q →
          logicalSlot q i = logicalSlot q k → i = k) ∧
        (∀ j : Int, 0 ≤ j → j < Cap q →
          (∀ i : Int, 0 ≤ i → i < Len q → logicalSlot q i ≠ j) → load slots j = some none) := by
  obtain ⟨hcap, hocc⟩ := reachableVia_occupancy h
  obtain ⟨slots, hq, hl, hc, hm, h0, h1, ht, ht2, ht3⟩ :=
    reachable_inv (reachableVia_reachable h)
  simp only [Len, Cap]
  refine ⟨h0, h1, hcap, slots, hq, by rw [hl, hcap], ?_, ?_, ?_, ?_⟩
  · intro hpos
    have htl := ht3 hpos
    have hs := logicalSlot_spec hc hm h1 htl ht2 (i := q.len - 1) (by omega) (by omega)
    exact ⟨htl, ht2, by omega⟩
  · intro i hi0 hi
    have htl := ht3 (lt_of_le_of_lt hi0 hi)
    have hs := logicalSlot_spec hc hm h1 htl ht2 hi0 hi
    exact ⟨logicalSlot_emod hc hm h1 htl ht2 hi0 hi, hs.1, hs.2.1,
      (hocc slots hq _ hs.1 hs.2.1).2 (not_outsideRun_logical hc hm h1 htl ht2 hi0 hi)⟩
  · intro i k hi0 hi hk0 hk heq
    exact logicalSlot_inj hc hm h1 (ht3 (lt_of_le_of_lt hi0 hi)) ht2 hi0 hi hk0 hk heq
  · intro j hj0 hj1 hne
    exact (hocc slots hq j hj0 hj1).1 (outsideRun_of_not_logical hc hm h0 ht ht3 hj0 hj1 hne)

theorem wrappedQueue_reachableVia :
    ReachableVia (fun e : Option Nat => e ≠ none) 3 wrappedQueue := by
  have h0 : ReachableVia (fun e : Option Nat => e ≠ none) 3
      (⟨some [none, none, none], -1, 0, 3⟩ : Queue Nat) :=
    ReachableVia.new 3 _ (by decide) (by decide)
  have h1 := ReachableVia.push _ (some 1) ⟨⟨some [some 1, none, none], 0, 1, 3⟩, 2, none⟩ h0
    (by decide) (by decide)
  have h2 := ReachableVia.push _ (some 2) ⟨⟨some [some 1, some 2, none], 1, 2, 3⟩, 1, none⟩ h1
    (by decide) (by decide)
  have h3 := ReachableVia.push _ (some 3) ⟨⟨some [some 1, some 2, some 3], 2, 3, 3⟩, 0, none⟩ h2
    (by decide) (by decide)
  have h4 := ReachableVia.popAt _ 0 ⟨⟨some [none, some 2, some 3], 2, 2, 3⟩, some 1, none⟩ h3
    (by decide) (by decide)
  exact ReachableVia.push _ (some 4) ⟨wrappedQueue, 0, none⟩ h4 (by decide) (by decide)

theorem state_invariant_witness :
    ReachableVia (fun e : Option Nat => e ≠ none) 3 wrappedQueue ∧
      (0 ≤ Len wrappedQueue ∧ Len wrappedQueue ≤ Cap wrappedQueue ∧ Cap wrappedQueue = 3 ∧
        ∃ slots, wrappedQueue.queue = some slots ∧ (slots.length : Int) = 3 ∧
          (0 < Len wrappedQueue → 0 ≤ wrappedQueue.tail ∧ wrappedQueue.tail < Cap wrappedQueue ∧
            logicalSlot wrappedQueue (Len wrappedQueue - 1) = wrappedQueue.tail) ∧
          (∀ i : Int, 0 ≤ i → i < Len wrappedQueue →
            logicalSlot wrappedQueue i =
                (wrappedQueue.tail - Len wrappedQueue + 1 + i) % Cap wrappedQueue ∧
              0 ≤ logicalSlot wrappedQueue i ∧ logicalSlot wrappedQueue i < Cap wrappedQueue ∧
              ∃ e, load slots (logicalSlot wrappedQueue i) = some e ∧ e ≠ none) ∧
          (∀ i k : Int, 0 ≤ i → i < Len wrappedQueue → 0 ≤ k → k < Len wrappedQueue →
            logicalSlot wrappedQueue i = logicalSlot wrappedQueue k → i = k) ∧
          (∀ j : Int, 0 ≤ j → j < Cap wrappedQueue →
            (∀ i : Int, 0 ≤ i → i < Len wrappedQueue → logicalSlot wrappedQueue i ≠ j) →
              load slots j = some none)) :=
  ⟨wrappedQueue_reachableVia,
    state_invariant (fun e : Option Nat => e ≠ none) 3 wrappedQueue wrappedQueue_reachableVia⟩

/-! ## Interior removal in a wrapped run, the index `len`, and push followed by pop -/

theorem popAt_wrapped_interior_eval {q : Queue α} {slots : List (Option α)}
    (hq : q.queue = some slots) (hl : (slots.length : Int) = q.cap)
    (hc : 0 < q.cap) (hm : q.cap ≤ maxInt)
    (h1 : q.len ≤ q.cap) (ht : 0 ≤ q.tail) (ht2 : q.tail < q.cap)
    {k : Int} (hk0 : 0 < k) (hk1 : k < q.len - 1) (hw : q.tail < logicalSlot q k) :
    PopAt q k = none := by
  have hpos : 0 < q.len := by omega
  obtain ⟨hh0, hh1, -, hh3⟩ := headIndex_spec hc hm hpos h1 ht ht2
  have hm9 := hm
  unfold maxInt at hm9
  have hx : q.tail - q.len + 1 + k < 0 := by
    by_contra hcon
    have : logicalSlot q k = q.tail - q.len + 1 + k := by
      simp only [logicalSlot, iadd, isub, wrapInt]
      split <;> omega
    omega
  have e1 : iadd (iadd (isub q.tail q.len) 1) k = q.tail - q.len + 1 + k := by
    simp only [iadd, isub, wrapInt]; omega
  have e7 : iadd (q.tail - q.len + 1 + k) q.cap = q.tail - q.len + 1 + k + q.cap := by
    simp only [iadd, wrapInt]; omega
  obtain ⟨e, he⟩ := load_some (s := slots) (i := q.tail - q.len + 1 + k + q.cap)
    (by omega) (by omega)
  unfold PopAt
  rw [hq]
  simp only [if_neg (ne_of_gt hpos), if_neg (show ¬ k < 0 by omega),
    if_neg (show ¬ k > q.len by omega), e1]
  unfold popShift
  simp only [Option.bind_eq_bind, Option.pure_def, if_neg (show ¬ q.tail - q.len + 1 + k ≥ 0 by omega),
    e7, he, Option.some_bind]
  rw [if_neg (by omega), if_neg (by omega),
    sliceCopy_none_of_high (by simp only [iadd, wrapInt]; omega)]
  rfl

theorem set_eq_self_of_getElem? {β : Type} {l : List β} {i : Nat} {a : β}
    (h : l[i]? = some a) : l.set i a = l := by
  apply List.ext_getElem?
  intro n
  rw [List.getElem?_set]
  split
  · rename_i hin
    subst hin
    rw [h]
    split
    · rfl
    · rename_i hlen
      exfalso
      apply hlen
      by_contra hcon
      rw [List.getElem?_eq_none (by omega)] at h
      cases h
  · rfl

theorem push_pop_eval {q : Queue α} (hi : Inv q) (ho : Occupancy (fun _ => True) q)
    (x : Option α) (hlt : q.len < q.cap) :
    ∃ r1 r2, Push q x = some r1 ∧ r1.err = none ∧ PopAt r1.state (-1) = some r2 ∧
      r2.err = none ∧ r2.val = x ∧ r2.state.len = q.len ∧ r2.state.cap = q.cap ∧
      r2.state.queue = q.queue ∧ contents r2.state = contents q := by
  have hi9 := hi
  obtain ⟨slots, hq, hl, hc, hm, h0, h1, ht, ht2, ht3⟩ := hi9
  obtain ⟨r1, hr1, herr1, -, hlen1, hcap1, htail1, -, hcont1, hinv1⟩ := push_spec hi x hlt
  have he := push_eval x hq hl hm h0 hlt ht ht2
  have hr1e := Option.some.inj (hr1.symm.trans he)
  have hq1 : r1.state.queue = some (slots.set ((q.tail + 1) % q.cap).toNat x) := by
    rw [hr1e]
  have e4 : ((q.tail + 1) % q.cap = q.tail + 1 ∧ q.tail + 1 < q.cap) ∨
      (q.tail + 1 = q.cap ∧ (q.tail + 1) % q.cap = 0) := by
    by_cases h : q.tail + 1 = q.cap
    · right; exact ⟨h, by rw [h, Int.emod_self]⟩
    · left; exact ⟨Int.emod_eq_of_lt (by omega) (by omega), by omega⟩
  generalize (q.tail + 1) % q.cap = t at e4 hq1 htail1
  have ht0 : 0 ≤ t ∧ t < q.cap := by constructor <;> omega
  have hvac : load slots t = some none :=
    (ho slots hq t ht0.1 ht0.2).1 (by unfold outsideRun; omega)
  obtain ⟨r2, hr2, herr2, hval2, hcont2, hlen2, hcap2, -⟩ :=
    popAt_last_spec hinv1 (by rw [hlen1]; omega)
  obtain ⟨r3, hr3, -, hval3, hq3, -⟩ :=
    popAt_last_eval hq1 (by rw [List.length_set, hl, hcap1]) (by rw [hcap1]; exact hm)
      (by rw [hlen1]; omega) (by rw [hlen1, hcap1]; omega) (by rw [htail1]; exact ht0.1)
      (by rw [htail1, hcap1]; exact ht0.2)
  have h23 := Option.some.inj (hr2.symm.trans hr3)
  subst h23
  refine ⟨r1, r2, hr1, herr1, hr2, herr2, ?_, by rw [hlen2, hlen1]; omega,
    by rw [hcap2, hcap1], ?_, ?_⟩
  · rw [htail1, load_set_eq _ _ ht0.1 (by omega)] at hval3
    exact (Option.some.inj hval3).symm
  · rw [hq3, htail1, hq, List.set_set]
    congr 1
    apply set_eq_self_of_getElem?
    rw [← load_eq ht0.1 (by omega)]
    exact hvac
  · rw [hcont2, hcont1, List.dropLast_concat]

/-! ## The claims on interior removal in a wrapped run, the index boundary and push followed by pop -/

/-- C16 (the code departs from the claim): in every reachable state, for every
interior logical index `k` (`0 < k < len - 1`) whose slot lies after `tail` in
the array, that is in the part of a wrapped run before the array end,
`PopAt(k)` panics: the two-phase shift is never carried out, because the
second slice expression of line 139 has the upper bound `cap + 1`. -/
theorem popAt_wrapped_interior_panics (q : Queue α) (hr : Reachable q) (k : Int)
    (hk0 : 0 < k) (hk1 : k < Len q - 1) (hw : q.tail < logicalSlot q k) :
    PopAt q k = none := by
  obtain ⟨slots, hq, hl, hc, hm, h0, h1, ht, ht2, ht3⟩ := reachable_inv hr
  have hk1a : k < q.len - 1 := hk1
  exact popAt_wrapped_interior_eval hq hl hc hm h1 (ht3 (by omega)) ht2 hk0 hk1 hw

theorem popAt_wrapped_interior_panics_witness :
    Reachable wrappedQueue ∧ (0 : Int) < 1 ∧ 1 < Len wrappedQueue - 1 ∧
      wrappedQueue.tail < logicalSlot wrappedQueue 1 ∧ PopAt wrappedQueue 1 = none :=
  ⟨wrappedQueue_reachable, by decide, by decide, by decide,
    popAt_wrapped_interior_panics wrappedQueue wrappedQueue_reachable 1 (by decide) (by decide)
      (by decide)⟩

/-- C18 (the code departs from the claim): `PopAt(len)` is not rejected. On the
full reachable state `wrappedQueue` (length `3`, contents `2, 3, 4`) `PopAt(3)`
returns the head element `2` without error and removes it; on the reachable
state `halfQueue` (length `1`) `PopAt(1)` panics. -/
theorem popAt_len_not_rejected :
    Reachable wrappedQueue ∧ Len wrappedQueue = 3 ∧
      PopAt wrappedQueue 3 =
        some ⟨⟨some [some 4, none, some 3], 0, 2, 3⟩, some 2, none⟩ ∧
      Reachable halfQueue ∧ Len halfQueue = 1 ∧ PopAt halfQueue 1 = none :=
  ⟨wrappedQueue_reachable, by decide, by decide, halfQueue_reachable, by decide, by decide⟩

/-- C19: on every reachable queue that is not full and for every element `x`,
`Push(x)` returns no error and the following `Pop()` returns `x` with no error
and leaves `len`, `cap`, every slot and the head-to-tail contents as they were
before the `Push`. -/
theorem push_pop_round_trip (q : Queue α) (hr : Reachable q) (x : Option α)
    (hlt : Len q < Cap q) :
    ∃ r1 r2, Push q x = some r1 ∧ r1.err = none ∧ Pop r1.state = some r2 ∧
      r2.err = none ∧ r2.val = x ∧ Len r2.state = Len q ∧ Cap r2.state = Cap q ∧
      r2.state.queue = q.queue ∧ contents r2.state = contents q := by
  obtain ⟨c, hc⟩ := reachable_reachableVia hr
  exact push_pop_eval (reachable_inv hr) (reachableVia_occupancy hc).2 x hlt

theorem push_pop_round_trip_witness :
    Reachable halfQueue ∧ Len halfQueue < Cap halfQueue ∧
      ∃ r1 r2, Push halfQueue (some 5) = some r1 ∧ r1.err = none ∧
        Pop r1.state = some r2 ∧ r2.err = none ∧ r2.val = some 5 ∧
        Len r2.state = Len halfQueue ∧ Cap r2.state = Cap halfQueue ∧
        r2.state.queue = halfQueue.queue ∧ contents r2.state = contents halfQueue :=
  ⟨halfQueue_reachable, by decide,
    push_pop_round_trip halfQueue halfQueue_reachable (some 5) (by decide)⟩

/-! ## Interior removal in a run that does not cross the array end -/

theorem sliceCopy_some {β : Type} {s : List β} {a b c d : Int}
    (h1 : sliceOK s a b) (h2 : sliceOK s c d) : ∃ s1, sliceCopy s a b c d = some s1 := by
  unfold sliceCopy
  rw [if_pos ⟨h1, h2⟩]
  exact ⟨_, rfl⟩

theorem contents_getElem? {q : Queue α} {slots : List (Option α)} (hq : q.queue = some slots)
    (n : Nat) :
    (contents q)[n]? =
      if n < q.len.toNat then some (load slots (logicalSlot q (n : Int))).join else none := by
  unfold contents
  rw [hq]
  simp only [List.getElem?_map]
  split
  · rename_i hn
    rw [List.getElem?_range hn]
    rfl
  · rename_i hn
    rw [List.getElem?_eq_none (by simp only [List.length_range]; omega)]
    rfl

theorem popAt_interior_eval {q : Queue α} {slots : List (Option α)}
    (hq : q.queue = some slots) (hl : (slots.length : Int) = q.cap)
    (hc : 0 < q.cap) (hm : q.cap ≤ maxInt)
    (h1 : q.len ≤ q.cap) (ht : 0 ≤ q.tail) (ht2 : q.tail < q.cap)
    {k : Int} (hk0 : 0 < k) (hk1 : k < q.len - 1) (hri : 0 ≤ q.tail - q.len + 1 + k) :
    ∃ r s1, PopAt q k = some r ∧ r.err = none ∧
      load slots (q.tail - q.len + 1 + k) = some r.val ∧
      sliceCopy slots (q.tail - q.len + 1 + k) q.tail (q.tail - q.len + 1 + k + 1)
        (q.tail + 1) = some s1 ∧
      r.state.queue = some (s1.set q.tail.toNat none) ∧
      r.state.len = q.len - 1 ∧ r.state.cap = q.cap ∧ r.state.tail = q.tail - 1 := by
  have hpos : 0 < q.len := by omega
  obtain ⟨hh0, hh1, -, hh3⟩ := headIndex_spec hc hm hpos h1 ht ht2
  have hm9 := hm
  unfold maxInt at hm9
  have e1 : iadd (iadd (isub q.tail q.len) 1) k = q.tail - q.len + 1 + k := by
    simp only [iadd, isub, wrapInt]; omega
  have e2 : isub q.len 1 = q.len - 1 := by
    simp only [isub, wrapInt]; omega
  have e3 : isub q.tail 1 = q.tail - 1 := by
    simp only [isub, wrapInt]; omega
  have e4 : iadd q.tail 1 = q.tail + 1 := by
    simp only [iadd, wrapInt]; omega
  have e5 : iadd (q.tail - q.len + 1 + k) 1 = q.tail - q.len + 1 + k + 1 := by
    simp only [iadd, wrapInt]; omega
  obtain ⟨e, he⟩ := load_some (s := slots) (i := q.tail - q.len + 1 + k) hri (by omega)
  obtain ⟨s1, hs1⟩ := sliceCopy_some (s := slots) (a := q.tail - q.len + 1 + k) (b := q.tail)
    (c := q.tail - q.len + 1 + k + 1) (d := q.tail + 1)
    (by unfold sliceOK; omega) (by unfold sliceOK; omega)
  have hs1l := sliceCopy_length hs1
  have st := store_eq (s := s1) none ht (by omega)
  refine ⟨popDone { q with queue := some (s1.set q.tail.toNat none), tail := isub q.tail 1 } e,
    s1, ?_, ?_, he, hs1, ?_, ?_, ?_, ?_⟩
  · unfold PopAt
    rw [hq]
    simp only [if_neg (ne_of_gt hpos), if_neg (show ¬ k < 0 by omega),
      if_neg (show ¬ k > q.len by omega), e1]
    unfold popShift
    simp only [Option.bind_eq_bind, Option.pure_def, if_pos (show q.tail - q.len + 1 + k ≥ 0 from hri),
      he, Option.some_bind]
    rw [if_neg (by omega), if_neg (by omega), e4, e5, hs1]
    simp only [Option.some_bind, st]
  · rfl
  · rfl
  · simp only [popDone, e2]
  · rfl
  · simp only [popDone, e3]
    rw [if_neg (by omega)]

theorem contents_remove_interior {q p : Queue α} {slots s1 : List (Option α)}
    (hq : q.queue = some slots) (hl : (slots.length : Int) = q.cap)
    (hc : 0 < q.cap) (hm : q.cap ≤ maxInt)
    (h1 : q.len ≤ q.cap) (ht : 0 ≤ q.tail) (ht2 : q.tail < q.cap)
    {k : Int} (hk0 : 0 ≤ k) (hk1 : k < q.len - 1) (hri : 0 ≤ q.tail - q.len + 1 + k)
    (hs1 : sliceCopy slots (q.tail - q.len + 1 + k) q.tail (q.tail - q.len + 1 + k + 1)
      (q.tail + 1) = some s1)
    (hp : p.queue = some (s1.set q.tail.toNat none))
    (hlen : p.len = q.len - 1) (hcap : p.cap = q.cap) (htail : p.tail = q.tail - 1) :
    contents p = (contents q).eraseIdx k.toNat := by
  have hsh := sliceCopy_shift_load hri (by omega) hs1
  have hs1l := sliceCopy_length hs1
  apply List.ext_getElem?
  intro n
  rw [List.getElem?_eraseIdx, contents_getElem? hp, contents_getElem? hq,
    contents_getElem? hq]
  by_cases hn : n < p.len.toNat
  · have hsame : logicalSlot p (n : Int) = logicalSlot q (n : Int) := by
      unfold maxInt at hm
      simp only [logicalSlot, iadd, isub, wrapInt, hlen, hcap, htail]
      split <;> split <;> omega
    have hs := logicalSlot_spec hc hm h1 ht ht2 (i := (n : Int)) (by omega) (by omega)
    have hs2 := logicalSlot_spec hc hm h1 ht ht2 (i := ((n + 1 : Nat) : Int)) (by omega)
      (by omega)
    have hn1 : n < q.len.toNat := by omega
    have hn2 : n + 1 < q.len.toNat := by omega
    rw [if_pos hn, if_pos hn1, if_pos hn2, hsame, load_set_ne _ _ ht hs.1 (by omega), hsh]
    by_cases hnk : n < k.toNat
    · have hout : ¬ (q.tail - q.len + 1 + k ≤ logicalSlot q (n : Int) ∧
          logicalSlot q (n : Int) < q.tail) := by omega
      rw [if_pos hnk, if_neg hout]
    · have hin : q.tail - q.len + 1 + k ≤ logicalSlot q (n : Int) ∧
          logicalSlot q (n : Int) < q.tail := by omega
      have hnext : logicalSlot q ((n + 1 : Nat) : Int) = logicalSlot q (n : Int) + 1 := by
        omega
      rw [if_neg hnk, if_pos hin, hnext]
  · have hn1 : ¬ n < k.toNat := by omega
    have hn2 : ¬ n + 1 < q.len.toNat := by omega
    rw [if_neg hn, if_neg hn1, if_neg hn2]

/-- C17: in every reachable state, for every interior logical index `k`
(`0 < k < len - 1`) whose slot `r = logicalSlot q k` lies before `tail` in the
array, `PopAt(k)` returns without error the element of slot `r`, which is the
`k`-th element of the contents; afterwards each slot `j` of `r .. tail - 1`
holds what slot `j + 1` held, the old tail slot is `nil`, no other slot has
changed, `tail` and `len` are decreased by one, and the head-to-tail contents
are the original contents with the `k`-th element deleted. -/
theorem popAt_interior_shift (q : Queue α) (hr : Reachable q) (k : Int)
    (hk0 : 0 < k) (hk1 : k < Len q - 1) (hs : logicalSlot q k < q.tail) :
    ∃ r slots slots1, q.queue = some slots ∧ PopAt q k = some r ∧ r.err = none ∧
      load slots (logicalSlot q k) = some r.val ∧ (contents q)[k.toNat]? = some r.val ∧
      r.state.queue = some slots1 ∧
      (∀ j : Int, logicalSlot q k ≤ j → j < q.tail → load slots1 j = load slots (j + 1)) ∧
      load slots1 q.tail = some none ∧
      (∀ j : Int, j < logicalSlot q k ∨ q.tail < j → load slots1 j = load slots j) ∧
      r.state.tail = q.tail - 1 ∧ Len r.state = Len q - 1 ∧ Cap r.state = Cap q ∧
      contents r.state = (contents q).eraseIdx k.toNat := by
  obtain ⟨slots, hq, hl, hc, hm, h0, h1, ht, ht2, ht3⟩ := reachable_inv hr
  have hk1a : k < q.len - 1 := hk1
  have htl := ht3 (by omega)
  have hx : logicalSlot q k = q.tail - q.len + 1 + k ∧ 0 ≤ q.tail - q.len + 1 + k := by
    have hsp := logicalSlot_spec hc hm h1 htl ht2 (i := k) (by omega) (by omega)
    constructor <;> omega
  obtain ⟨hx1, hx2⟩ := hx
  obtain ⟨r, s1, hpop, herr, hval, hs1, hqs, hlen, hcap, htail⟩ :=
    popAt_interior_eval hq hl hc hm h1 htl ht2 hk0 hk1a hx2
  have hsh := sliceCopy_shift_load hx2 (by omega) hs1
  have hs1l := sliceCopy_length hs1
  have hcont := contents_remove_interior hq hl hc hm h1 htl ht2 (le_of_lt hk0) hk1a hx2 hs1 hqs
    hlen hcap htail
  rw [hx1]
  refine ⟨r, slots, s1.set q.tail.toNat none, hq, hpop, herr, hval, ?_, hqs, ?_, ?_, ?_, htail,
    hlen, hcap, hcont⟩
  · rw [contents_getElem? hq, if_pos (by omega), Int.toNat_of_nonneg (le_of_lt hk0), hx1, hval]
    rfl
  · intro j hj1 hj2
    rw [load_set_ne _ _ htl (by omega) (by omega), hsh, if_pos ⟨hj1, hj2⟩]
  · exact load_set_eq _ _ htl (by omega)
  · intro j hj
    by_cases hj0 : 0 ≤ j
    · rw [load_set_ne _ _ htl hj0 (by omega), hsh, if_neg (by omega)]
    · rw [load_none_of_out (Or.inl (by omega)), load_none_of_out (Or.inl (by omega))]

theorem popAt_interior_shift_witness :
    Reachable straightQueue ∧ (0 : Int) < 1 ∧ 1 < Len straightQueue - 1 ∧
      logicalSlot straightQueue 1 < straightQueue.tail ∧
      ∃ r slots slots1, straightQueue.queue = some slots ∧ PopAt straightQueue 1 = some r ∧
        r.err = none ∧ load slots (logicalSlot straightQueue 1) = some r.val ∧
        (contents straightQueue)[(1 : Int).toNat]? = some r.val ∧
        r.state.queue = some slots1 ∧
        (∀ j : Int, logicalSlot straightQueue 1 ≤ j → j < straightQueue.tail →
          load slots1 j = load slots (j + 1)) ∧
        load slots1 straightQueue.tail = some none ∧
        (∀ j : Int, j < logicalSlot straightQueue 1 ∨ straightQueue.tail < j →
          load slots1 j = load slots j) ∧
        r.state.tail = straightQueue.tail - 1 ∧ Len r.state = Len straightQueue - 1 ∧
        Cap r.state = Cap straightQueue ∧
        contents r.state = (contents straightQueue).eraseIdx (1 : Int).toNat :=
  ⟨straightQueue_reachable, by decide, by decide, by decide,
    popAt_interior_shift straightQueue straightQueue_reachable 1 (by decide) (by decide)
      (by decide)⟩

end CircularQueue
